import Mathlib

/-!
# Verification of the celib INI parser / serializer

Shallow embedding of `src/ini.h` and `src/ce_ini.h` (the two files are
near-identical revisions of the same code; where they agree we embed the
common definition once, keeping the source's function names).

Strings from the C code are modelled as `List Char`; the NUL terminator of a
C string is modelled by the end of the list (the source never stores NUL
inside a string).  Fallible C functions that return `NULL` after printing an
error message are modelled as `Except` values whose error constructor names
the printed message, using the error taxonomy of the specification
(`MissingCloseBracket` for "end of section not found", `KeyTooLong` for
"key too long", and so on).
-/

set_option maxRecDepth 8192

namespace CeIni

/-- Error kinds.  Each constructor corresponds to exactly one `err("...")`
call site in the source. -/
inductive PErr where
  | missingOpenBracket
  | missingCloseBracket
  | invalidSectionChar
  | sectionTooLong
  | invalidKeyChar
  | keyTooLong
  | keyEmpty
  | malformedEntry
  | invalidValueChar
  | valueTooLong
  | invalidEscapeSequence
  | missingClosingQuote
  | missingOpeningQuote
  deriving DecidableEq, Repr

/-- C `iscntrl` in the C locale (ASCII): bytes 0x00–0x1F and 0x7F. -/
def iscntrl (c : Char) : Bool := c.toNat < 32 || c.toNat == 127

/-- C `isprint` in the C locale (ASCII): bytes 0x20–0x7E. -/
def isprint (c : Char) : Bool := 32 ≤ c.toNat && c.toNat ≤ 126

/-- C `isalnum` in the C locale (ASCII): digits and letters. -/
def isalnum (c : Char) : Bool :=
  (48 ≤ c.toNat && c.toNat ≤ 57) || (65 ≤ c.toNat && c.toNat ≤ 90) ||
    (97 ≤ c.toNat && c.toNat ≤ 122)

/-- `skipWhitespace`: advance while the character is not `'\n'` and is a
control character or a space. -/
def skipWhitespace : List Char → List Char
  | [] => []
  | c :: s => if c ≠ '\n' && (iscntrl c || c == ' ') then skipWhitespace s else c :: s

/-- `skipToFirstReadableChar`: advance while the character is a control
character (newlines included) or a space. -/
def skipToFirstReadableChar : List Char → List Char
  | [] => []
  | c :: s => if iscntrl c || c == ' ' then skipToFirstReadableChar s else c :: s

/-- `nextLine`: advance to the end of the line, then consume all consecutive
newline characters. -/
def nextLine (s : List Char) : List Char :=
  (s.dropWhile (· ≠ '\n')).dropWhile (· == '\n')

/-- `skipEquality`: skip whitespace, require `'='` (else the "equality not
found" error, the spec's `MalformedEntry`), skip whitespace after it. -/
def skipEquality (s : List Char) : Except PErr (List Char) :=
  match skipWhitespace s with
  | '=' :: rest => .ok (skipWhitespace rest)
  | _ => .error .malformedEntry

/-- Loop body of `parseSection`: `while(*str && *str != ']')` accumulating
characters subject to the character-class check and the `n <
INI_MAX_SECTION_LENGTH - 1` bound; afterwards the closing bracket is
required (`end of section not found` on end of input). -/
def sectionLoop (n : Nat) (acc : List Char) : List Char → Except PErr (List Char × List Char)
  | [] => .error .missingCloseBracket
  | c :: s =>
    if c = ']' then .ok (acc, s)
    else if ¬(isalnum c || c == '-' || c == '_' || c == ' ') then .error .invalidSectionChar
    else if ¬(n < 31) then .error .sectionTooLong
    else sectionLoop (n + 1) (acc ++ [c]) s

/-- `parseSection`: require `'['`, then run the accumulation loop. -/
def parseSection : List Char → Except PErr (List Char × List Char)
  | '[' :: s => sectionLoop 0 [] s
  | _ => .error .missingOpenBracket

/-- Loop body of `parseKey` / `parseName`: `while(*str && *str != ' ' &&
*str != '=')` with character-class and length checks; an empty run is the
"key too short" error. -/
def nameLoop (n : Nat) (acc : List Char) : List Char → Except PErr (List Char × List Char)
  | [] => if n = 0 then .error .keyEmpty else .ok (acc, [])
  | c :: s =>
    if c = ' ' || c = '=' then
      if n = 0 then .error .keyEmpty else .ok (acc, c :: s)
    else if ¬(isalnum c || c == '.' || c == '-' || c == '_') then .error .invalidKeyChar
    else if ¬(n < 31) then .error .keyTooLong
    else nameLoop (n + 1) (acc ++ [c]) s

/-- `parseKey` in `ini.h`, `parseName` in `ce_ini.h`. -/
def parseName (s : List Char) : Except PErr (List Char × List Char) :=
  nameLoop 0 [] s

/-- Drop the trailing run of `' '` characters, as the `while(n > 0 &&
out[n-1] == ' ') out[--n] = '\0';` loop does. -/
def trimTrailingSpaces (l : List Char) : List Char :=
  (l.reverse.dropWhile (· == ' ')).reverse

/-- Accumulation loop of `parseUnquotedValue`: `while(*str && *str != '\n'
&& *str != '\r' && *str != ';')` with printability and length checks. -/
def unqLoop (n : Nat) (acc : List Char) : List Char → Except PErr (List Char × List Char)
  | [] => .ok (acc, [])
  | c :: s =>
    if c = '\n' || c = '\r' || c = ';' then .ok (acc, c :: s)
    else if ¬(isprint c || c = '\t') then .error .invalidValueChar
    else if ¬(n < 63) then .error .valueTooLong
    else unqLoop (n + 1) (acc ++ [c]) s

/-- `parseUnquotedValue`: accumulate, then trim trailing spaces. -/
def parseUnquotedValue (s : List Char) : Except PErr (List Char × List Char) :=
  match unqLoop 0 [] s with
  | .error e => .error e
  | .ok (v, rest) => .ok (trimTrailingSpaces v, rest)

/-- The escape `switch`: exactly four recognised sequences (the dead first
assignment `c = '"'` of each case in the source is dropped; the second
assignment always wins), anything else is "invalid escape sequence". -/
def escChar (c : Char) : Except PErr Char :=
  if c = '"' then .ok '"'
  else if c = '\\' then .ok '\\'
  else if c = 't' then .ok '\t'
  else if c = 'n' then .ok '\n'
  else .error .invalidEscapeSequence

/-- Accumulation loop of `parseQuotedValue` together with the closing-quote
check that follows it in the source.  The loop runs `while(*str && *str !=
'\n' && *str != '\r' && *str != ';' && *str != '"')`; afterwards the source
checks `if(*str && *(str++) != '"') return err("ending quote not found")`.
Folding the check into the loop exit: a terminator `'\n'`/`'\r'`/`';'`
yields the error, `'"'` is consumed and yields success, and end of input
yields success *without* a closing quote (the `*str &&` short-circuit skips
the check — this end-of-input leniency is preserved faithfully).
A backslash consumes the next character (`switch(*(str++))`; at end of input
the switch reads the NUL terminator and takes the `default` branch). -/
def qLoop (n : Nat) (acc : List Char) : List Char → Except PErr (List Char × List Char)
  | [] => .ok (acc, [])
  | c :: s =>
    if c = '\n' || c = '\r' || c = ';' then .error .missingClosingQuote
    else if c = '"' then .ok (acc, s)
    else if c = '\\' then
      match s with
      | [] => .error .invalidEscapeSequence
      | e :: s2 =>
        match escChar e with
        | .error er => .error er
        | .ok ce =>
          if ¬(n < 63) then .error .valueTooLong
          else qLoop (n + 1) (acc ++ [ce]) s2
    else if ¬(isprint c || c = '\t') then .error .invalidValueChar
    else if ¬(n < 63) then .error .valueTooLong
    else qLoop (n + 1) (acc ++ [c]) s

/-- `parseQuotedValue`: the opening check `if(*str && *(str++) != '"')`
consumes and requires a quote when input remains, and silently proceeds at
end of input. -/
def parseQuotedValue (s : List Char) : Except PErr (List Char × List Char) :=
  match s with
  | [] => qLoop 0 [] []
  | c :: s2 => if c = '"' then qLoop 0 [] s2 else .error .missingOpeningQuote

/-- `parseValue`: dispatch on a leading `'"'`. -/
def parseValue (s : List Char) : Except PErr (List Char × List Char) :=
  match s with
  | '"' :: _ => parseQuotedValue s
  | _ => parseUnquotedValue s

/-- The (section, key, value) triple delivered to the read callback /
fetched from the write callback. -/
structure Triple where
  sec : List Char
  key : List Char
  val : List Char
  deriving DecidableEq, Repr

/-! ### The document parser

`INI_Parse` / `CE_INI_Read` loop until the cursor reaches the terminator.
Every iteration strictly consumes input (the lemmas above), so `s.length +
1` steps always suffice; the loop is written by structural recursion on
that step count so that it evaluates by kernel reduction, and
`iniParse_unfold` below proves the step count irrelevant (the fuel-zero
branch is unreachable for the fuel `iniParse` supplies). -/

/-- One C loop iteration per fuel step (the `if(*str == '[') / else
if(*str == ';') / else if(*str)` chain of the source); see `iniParse`. -/
def iniParseFuel : Nat → List Char → List Char → Except PErr (List Triple)
  | 0, _, _ => .ok []
  | fuel + 1, sec, s =>
    match skipToFirstReadableChar s with
    | [] => .ok []
    | c :: rest =>
      if c = '[' then
        match parseSection (c :: rest) with
        | .error e => .error e
        | .ok (sec2, r2) => iniParseFuel fuel sec2 r2
      else if c = ';' then
        iniParseFuel fuel sec (nextLine (c :: rest))
      else
        match parseName (c :: rest) with
        | .error e => .error e
        | .ok (k, r1) =>
          match skipEquality r1 with
          | .error e => .error e
          | .ok r2 =>
            match parseValue r2 with
            | .error e => .error e
            | .ok (v, r3) =>
              match iniParseFuel fuel sec r3 with
              | .error e => .error e
              | .ok ts => .ok (⟨sec, k, v⟩ :: ts)

/-- `INI_Parse` in `ini.h`, `CE_INI_Read` in `ce_ini.h`.

The C function keeps the current section in a stack buffer `char
section[32]` that the loop only writes through `parseSection`; the buffer's
initial contents (the C code never initialises it) are the parameter `sec`.
The returned list is the sequence of callback invocations `(section, key,
value)` in order. -/
def iniParse (sec : List Char) (s : List Char) : Except PErr (List Triple) :=
  iniParseFuel (s.length + 1) sec s

/-! ### The serializer

`CE_INI_Write` emits text through `bufferPrint`.  Two views of the same
source code are embedded: a *text* view (`bprint`, `writeLoop`, `ceWrite`)
that tracks the emitted character sequence and the success/failure status,
and a *trace* view further below (`bufferPrintT`, …) that additionally
records the buffer index of every single byte store, terminator included,
for the buffer-safety claims.

For `bufferPrint(buffer, length, bytes_written, str)` the copy loop stores
`str`'s bytes at indices `*bytes_written, …` subject to `index < length-1`;
it succeeds iff `str` is empty (loop never entered) or all of `str` fits,
i.e. `*bytes_written + |str| + 1 ≤ length`, in which case the text in the
buffer becomes the old text followed by `str`. -/

/-- Text view of `bufferPrint`: `acc` is the text stored at indices
`0 … bytes_written-1` (so `acc.length` is `*bytes_written`). -/
def bprint (cap : Nat) (acc s : List Char) : Except Unit (List Char) :=
  if s = [] then .ok acc
  else if acc.length + s.length + 1 ≤ cap then .ok (acc ++ s) else .error ()

/-- A sequence of `bufferPrint` calls, aborting at the first failure, as the
`||`-chains in `CE_INI_Write` do. -/
def bprints : Nat → List Char → List (List Char) → Except Unit (List Char)
  | _, acc, [] => .ok acc
  | cap, acc, s :: rest =>
    match bprint cap acc s with
    | .error e => .error e
    | .ok acc2 => bprints cap acc2 rest

/-- The four `bufferPrint` arguments for one name/value pair:
`name`, `"="`, `value`, `"\n"`. -/
def entryPieces (t : Triple) : List (List Char) := [t.key, ['='], t.val, ['\n']]

/-- The `bufferPrint` arguments of one iteration of the `do`-loop of
`CE_INI_Write` when an unwritten option exists: the header pieces `"["`,
`write_section`, `"]\n"`, then the pieces of every unwritten option whose
section compares equal (`strcmp == 0`), in index order, then the
separating `"\n"`. -/
def groupPieces (rem : List Triple) (s : List Char) : List (List Char) :=
  [['['], s, [']', '\n']] ++ ((rem.filter (fun u => u.sec = s)).map entryPieces).flatten ++ [['\n']]

/-- One iteration of `CE_INI_Write`'s `do … while(num_written > 0)` loop
per fuel step.  `rem` is the list of not-yet-written options in index
order; the head of `rem` is the first unwritten index, whose section the
header pass fetches.  When `rem` is empty the iteration finds no section,
prints only the blank line and the loop exits. -/
def writeLoopFuel : Nat → Nat → List Char → List Triple → Except Unit (List Char)
  | 0, _, acc, _ => .ok acc
  | fuel + 1, cap, acc, rem =>
    match rem with
    | [] => bprint cap acc ['\n']
    | t :: rest =>
      match bprints cap acc (groupPieces (t :: rest) t.sec) with
      | .error e => .error e
      | .ok acc2 => writeLoopFuel fuel cap acc2 (rest.filter (fun u => ¬(u.sec = t.sec)))

/-- The write loop with its (provably sufficient) step count: every
iteration with a nonempty `rem` writes at least the head option, so
`rem.length + 1` iterations always reach the empty state. -/
def writeLoop (cap : Nat) (acc : List Char) (rem : List Triple) : Except Unit (List Char) :=
  writeLoopFuel (rem.length + 1) cap acc rem

/-- `CE_INI_Write`: the up-front `option_count > CE_INI_MAX_WRITE_OPTIONS`
check, then the loop.  The callback-by-index accessor is modelled as the
list `opts` (`opts[i]` is what the callback stores for index `i`; the
algorithm requires the callback to be a pure function of the index). -/
def ceWrite (cap : Nat) (opts : List Triple) : Except Unit (List Char) :=
  if opts.length > 256 then .error ()
  else writeLoop cap [] opts

/-! ### Specification-side description of the writer output

These definitions follow the specification's words (§4.6): sections in
order of first appearance of a not-yet-emitted member, one header per
section, all of a section's `key=value` lines coalesced under it in index
order, a blank line after each group.  `CE_INI_Write`'s output is proved
equal to this description. -/

/-- First-appearance order: the distinct section strings in the order in
which they first occur. -/
def sectionOrderFuel : Nat → List (List Char) → List (List Char)
  | 0, _ => []
  | fuel + 1, l =>
    match l with
    | [] => []
    | s :: rest => s :: sectionOrderFuel fuel (rest.filter (fun u => ¬(u = s)))

/-- `sectionOrderFuel` with its (provably sufficient) step count. -/
def sectionOrder (l : List (List Char)) : List (List Char) :=
  sectionOrderFuel (l.length + 1) l

/-- The text of one `key=value` line. -/
def entryLine (t : Triple) : List Char := t.key ++ '=' :: (t.val ++ ['\n'])

/-- The text of one section group: header, the section's entry lines in
index order, blank separator line. -/
def groupText (opts : List Triple) (s : List Char) : List Char :=
  '[' :: (s ++ ']' :: '\n' :: (((opts.filter (fun u => u.sec = s)).map entryLine).flatten ++ ['\n']))

/-- The specified output text of a successful `CE_INI_Write`: the groups in
first-appearance section order, then the final blank line printed by the
loop iteration that finds nothing left to write. -/
def specWrite (opts : List Triple) : List Char :=
  ((sectionOrder (opts.map Triple.sec)).map (groupText opts)).flatten ++ ['\n']

/-- The triples a successful `CE_INI_Write` emits, in emission order: for
each section in first-appearance order, all options of that section in
index order. -/
def groupedTriples (opts : List Triple) : List Triple :=
  ((sectionOrder (opts.map Triple.sec)).map (fun s => opts.filter (fun u => u.sec = s))).flatten

/-! ### Trace view of `bufferPrint`

For the buffer-safety claims the store *indices* matter, not just the text.
`bufferPrintT` returns the exact list of `(index, byte)` stores that
`bufferPrint(buffer, length, bytes_written, str)` performs on the success
path, together with the updated `*bytes_written`.  The copy loop stores
`str`'s bytes one at a time at `buffer[index++]` subject to `index <
length - 1`, failing (`"write buffer full"`) at the first byte that does
not fit; after the loop the source stores the terminator via
`buffer[index + 1] = '\0'` and sets `*bytes_written = index`. -/

/-- The NUL byte the terminator store writes. -/
def nulChar : Char := Char.ofNat 0

/-- The copy loop of `bufferPrint`: stores of `(index, byte)` pairs. -/
def bpLoopT (cap : Nat) : Nat → List Char → Except Unit (List (Nat × Char) × Nat)
  | idx, [] => .ok ([], idx)
  | idx, c :: rest =>
    if idx < cap - 1 then
      match bpLoopT cap (idx + 1) rest with
      | .error e => .error e
      | .ok (tr, fin) => .ok ((idx, c) :: tr, fin)
    else .error ()

/-- `bufferPrint` with its store trace: the copy-loop stores followed by
the terminator store at `index + 1`. -/
def bufferPrintT (cap bw : Nat) (s : List Char) : Except Unit (List (Nat × Char) × Nat) :=
  match bpLoopT cap bw s with
  | .error e => .error e
  | .ok (tr, idx) => .ok (tr ++ [(idx + 1, nulChar)], idx)

/-- A sequence of `bufferPrint` calls, with concatenated store traces. -/
def bprintsT : Nat → Nat → List (List Char) → Except Unit (List (Nat × Char) × Nat)
  | _, bw, [] => .ok ([], bw)
  | cap, bw, s :: rest =>
    match bufferPrintT cap bw s with
    | .error e => .error e
    | .ok (tr, bw2) =>
      match bprintsT cap bw2 rest with
      | .error e => .error e
      | .ok (tr2, bw3) => .ok (tr ++ tr2, bw3)

/-- The `CE_INI_Write` loop in the trace view (same structure as
`writeLoopFuel`). -/
def writeLoopFuelT : Nat → Nat → Nat → List Triple → Except Unit (List (Nat × Char) × Nat)
  | 0, _, bw, _ => .ok ([], bw)
  | fuel + 1, cap, bw, rem =>
    match rem with
    | [] => bufferPrintT cap bw ['\n']
    | t :: rest =>
      match bprintsT cap bw (groupPieces (t :: rest) t.sec) with
      | .error e => .error e
      | .ok (tr, bw2) =>
        match writeLoopFuelT fuel cap bw2 (rest.filter (fun u => ¬(u.sec = t.sec))) with
        | .error e => .error e
        | .ok (tr2, bw3) => .ok (tr ++ tr2, bw3)

/-- `CE_INI_Write` in the trace view. -/
def ceWriteT (cap : Nat) (opts : List Triple) : Except Unit (List (Nat × Char) × Nat) :=
  if opts.length > 256 then .error ()
  else writeLoopFuelT (opts.length + 1) cap 0 opts

/-! ### Well-formedness predicates for the round trip -/

/-- The section-body character class of `parseSection`. -/
def sectionCharOk (c : Char) : Bool := isalnum c || c == '-' || c == '_' || c == ' '

/-- The key character class of `parseKey` / `parseName`. -/
def keyCharOk (c : Char) : Bool := isalnum c || c == '.' || c == '-' || c == '_'

/-- A section string that re-parses from a `[section]` header: the
character class of `parseSection` and its length bound. -/
def goodSec (s : List Char) : Prop := (∀ c ∈ s, sectionCharOk c = true) ∧ s.length ≤ 31

/-- A key string that re-parses from a `key=` prefix: nonempty, the
character class of `parseKey` and its length bound. -/
def goodKey (k : List Char) : Prop :=
  k ≠ [] ∧ (∀ c ∈ k, keyCharOk c = true) ∧ k.length ≤ 31

/-- A character an unquoted value may contain and keep through a re-parse:
printable-or-tab (the `parseUnquotedValue` character check) and not the
comment starter `';'` (at which the value loop stops). -/
def uvCharOk (c : Char) : Bool := (isprint c || c = '\t') && !(c = ';')

/-- A character the quoted-value loop consumes as a plain (non-escape)
character: `uvCharOk` minus the closing quote and the escape introducer. -/
def qvCharOk (c : Char) : Bool := uvCharOk c && !(c = '"') && !(c = '\\')

/-- A value string that re-parses unchanged after being written raw as
`key=value\n`: printable-or-tab characters only, no `';'` (comment start),
no leading character that `skipWhitespace` would eat or that would
dispatch to the quoted grammar, no trailing space (which the unquoted
grammar trims), and within the length bound. -/
def goodVal (v : List Char) : Prop :=
  (∀ c ∈ v, uvCharOk c = true) ∧
  (∀ c, v.head? = some c → iscntrl c = false ∧ c ≠ ' ' ∧ c ≠ '"') ∧
  v.getLast? ≠ some ' ' ∧ v.length ≤ 63

/-- A triple whose serialized form re-parses to itself. -/
def goodTriple (t : Triple) : Prop := goodSec t.sec ∧ goodKey t.key ∧ goodVal t.val

/-- The three options of the specification's grouping example:
`{(A,"k1","v1"), (B,"k2","v2"), (A,"k3","v3")}`. -/
def c1ExOpts : List Triple :=
  [⟨['A'], ['k', '1'], ['v', '1']⟩, ⟨['B'], ['k', '2'], ['v', '2']⟩,
    ⟨['A'], ['k', '3'], ['v', '3']⟩]

/-! ### Consumption lemmas

Each sub-parser returns a suffix of its input; these length bounds justify
the termination of the document-parse loop. -/

theorem skipWhitespace_length (s : List Char) : (skipWhitespace s).length ≤ s.length := by
  induction s with
  | nil => exact Nat.le_refl _
  | cons c s ih =>
    simp only [skipWhitespace]
    split
    · exact Nat.le_trans ih (by simp)
    · exact Nat.le_refl _

theorem skipToFirstReadableChar_length (s : List Char) :
    (skipToFirstReadableChar s).length ≤ s.length := by
  induction s with
  | nil => exact Nat.le_refl _
  | cons c s ih =>
    simp only [skipToFirstReadableChar]
    split
    · exact Nat.le_trans ih (by simp)
    · exact Nat.le_refl _

theorem nextLine_length (s : List Char) : (nextLine s).length ≤ s.length := by
  unfold nextLine
  exact Nat.le_trans (List.dropWhile_sublist _).length_le (List.dropWhile_sublist _).length_le

theorem nextLine_cons {c : Char} (s : List Char) (h : c ≠ '\n') :
    nextLine (c :: s) = nextLine s := by
  unfold nextLine
  rw [List.dropWhile_cons_of_pos (by simpa using h)]

theorem skipEquality_length {s r : List Char} (h : skipEquality s = .ok r) :
    r.length ≤ s.length := by
  unfold skipEquality at h
  split at h
  next rest heq =>
    cases h
    have h1 := skipWhitespace_length rest
    have h2 := skipWhitespace_length s
    rw [heq] at h2
    simp only [List.length_cons] at h2
    omega
  next => exact absurd h (by simp)

theorem sectionLoop_length {n : Nat} {acc s sec r : List Char}
    (h : sectionLoop n acc s = .ok (sec, r)) : r.length < s.length := by
  induction s generalizing n acc with
  | nil => exact absurd h (by simp [sectionLoop])
  | cons c s ih =>
    simp only [sectionLoop] at h
    split at h
    · cases h; simp
    · split at h
      · exact absurd h (by simp)
      · split at h
        · exact absurd h (by simp)
        · exact Nat.lt_trans (ih h) (by simp)

theorem parseSection_length {s sec r : List Char}
    (h : parseSection s = .ok (sec, r)) : r.length < s.length := by
  unfold parseSection at h
  split at h
  next s2 => exact Nat.lt_trans (sectionLoop_length h) (by simp)
  next => exact absurd h (by simp)

theorem nameLoop_length {n : Nat} {acc s k r : List Char}
    (h : nameLoop n acc s = .ok (k, r)) : r.length ≤ s.length := by
  induction s generalizing n acc with
  | nil =>
    simp only [nameLoop] at h
    split at h
    · exact absurd h (by simp)
    · cases h; exact Nat.le_refl _
  | cons c s ih =>
    simp only [nameLoop] at h
    split at h
    · split at h
      · exact absurd h (by simp)
      · cases h; exact Nat.le_refl _
    · split at h
      · exact absurd h (by simp)
      · split at h
        · exact absurd h (by simp)
        · exact Nat.le_trans (ih h) (by simp)

theorem parseName_length {s k r : List Char}
    (h : parseName s = .ok (k, r)) : r.length < s.length := by
  unfold parseName at h
  cases s with
  | nil => exact absurd h (by simp [nameLoop])
  | cons c s =>
    simp only [nameLoop] at h
    split at h
    · simp at h
    · split at h
      · exact absurd h (by simp)
      · split at h
        · exact absurd h (by simp)
        · exact Nat.lt_of_le_of_lt (nameLoop_length h) (by simp)

theorem unqLoop_length {n : Nat} {acc s v r : List Char}
    (h : unqLoop n acc s = .ok (v, r)) : r.length ≤ s.length := by
  induction s generalizing n acc with
  | nil => cases h; exact Nat.le_refl _
  | cons c s ih =>
    simp only [unqLoop] at h
    split at h
    · cases h; exact Nat.le_refl _
    · split at h
      · exact absurd h (by simp)
      · split at h
        · exact absurd h (by simp)
        · exact Nat.le_trans (ih h) (by simp)

theorem qLoop_length_aux (m : Nat) : ∀ (s : List Char), s.length ≤ m →
    ∀ {n : Nat} {acc v r : List Char}, qLoop n acc s = .ok (v, r) → r.length ≤ s.length := by
  induction m with
  | zero =>
    intro s hs n acc v r h
    have : s = [] := List.length_eq_zero.mp (Nat.le_antisymm hs (Nat.zero_le _))
    subst this
    simp only [qLoop] at h
    cases h
    exact Nat.le_refl _
  | succ m ih =>
    intro s hs n acc v r h
    cases s with
    | nil =>
      simp only [qLoop] at h
      cases h
      exact Nat.le_refl _
    | cons c s2 =>
      unfold qLoop at h
      split at h
      · exact absurd h (by simp)
      · split at h
        · cases h; simp
        · split at h
          · split at h
            · exact absurd h (by simp)
            · split at h
              · exact absurd h (by simp)
              · split at h
                · exact absurd h (by simp)
                · refine Nat.le_trans (ih _ ?_ h) ?_ <;>
                    simp only [List.length_cons] at hs ⊢ <;> omega
          · split at h
            · exact absurd h (by simp)
            · split at h
              · exact absurd h (by simp)
              · have hr := ih s2 (by simp only [List.length_cons] at hs; omega) h
                simp only [List.length_cons] at hr ⊢
                omega

theorem qLoop_length {n : Nat} {acc s v r : List Char}
    (h : qLoop n acc s = .ok (v, r)) : r.length ≤ s.length :=
  qLoop_length_aux s.length s (Nat.le_refl _) h

theorem parseUnquotedValue_length {s v r : List Char}
    (h : parseUnquotedValue s = .ok (v, r)) : r.length ≤ s.length := by
  unfold parseUnquotedValue at h
  split at h
  · exact absurd h (by simp)
  next v2 r2 heq => cases h; exact unqLoop_length heq

theorem parseQuotedValue_length {s v r : List Char}
    (h : parseQuotedValue s = .ok (v, r)) : r.length ≤ s.length := by
  unfold parseQuotedValue at h
  split at h
  · simp only [qLoop] at h
    cases h
    exact Nat.le_refl _
  · split at h
    · exact Nat.le_trans (qLoop_length h) (by simp)
    · exact absurd h (by simp)

theorem parseValue_length {s v r : List Char}
    (h : parseValue s = .ok (v, r)) : r.length ≤ s.length := by
  unfold parseValue at h
  split at h
  · exact parseQuotedValue_length h
  · exact parseUnquotedValue_length h

theorem iniParseFuel_congr (f1 : Nat) : ∀ (f2 : Nat) (sec s : List Char),
    s.length < f1 → s.length < f2 →
    iniParseFuel f1 sec s = iniParseFuel f2 sec s := by
  induction f1 with
  | zero => intro f2 sec s h1; omega
  | succ g1 ih =>
    intro f2 sec s h1 h2
    cases f2 with
    | zero => omega
    | succ g2 =>
      have hskip := skipToFirstReadableChar_length s
      unfold iniParseFuel
      cases hss : skipToFirstReadableChar s with
      | nil => rfl
      | cons c rest =>
        rw [hss] at hskip
        simp only [List.length_cons] at hskip
        simp only
        by_cases hc1 : c = '['
        · rw [if_pos hc1, if_pos hc1]
          cases hp : parseSection (c :: rest) with
          | error e => rfl
          | ok p =>
            obtain ⟨sec2, r2⟩ := p
            have hlen := parseSection_length hp
            simp only [List.length_cons] at hlen
            exact ih g2 sec2 r2 (by omega) (by omega)
        · rw [if_neg hc1, if_neg hc1]
          by_cases hc2 : c = ';'
          · rw [if_pos hc2, if_pos hc2]
            have hnl := nextLine_length rest
            rw [nextLine_cons rest (by rw [hc2]; decide)]
            exact ih g2 sec _ (by omega) (by omega)
          · rw [if_neg hc2, if_neg hc2]
            cases hk : parseName (c :: rest) with
            | error e => rfl
            | ok p =>
              obtain ⟨k, r1⟩ := p
              dsimp only
              have hl1 := parseName_length hk
              simp only [List.length_cons] at hl1
              cases he : skipEquality r1 with
              | error e => rfl
              | ok r2 =>
                dsimp only
                have hl2 := skipEquality_length he
                cases hv : parseValue r2 with
                | error e => rfl
                | ok q =>
                  obtain ⟨v, r3⟩ := q
                  dsimp only
                  have hl3 := parseValue_length hv
                  rw [ih g2 sec r3 (by omega) (by omega)]

/-- The loop equation of `INI_Parse` / `CE_INI_Read`: one iteration of
`while(str != NULL && *str)`, with the step count shown irrelevant. -/
theorem iniParse_unfold (sec s : List Char) :
    iniParse sec s =
      match skipToFirstReadableChar s with
      | [] => .ok []
      | c :: rest =>
        if c = '[' then
          match parseSection (c :: rest) with
          | .error e => .error e
          | .ok (sec2, r2) => iniParse sec2 r2
        else if c = ';' then
          iniParse sec (nextLine (c :: rest))
        else
          match parseName (c :: rest) with
          | .error e => .error e
          | .ok (k, r1) =>
            match skipEquality r1 with
            | .error e => .error e
            | .ok r2 =>
              match parseValue r2 with
              | .error e => .error e
              | .ok (v, r3) =>
                match iniParse sec r3 with
                | .error e => .error e
                | .ok ts => .ok (⟨sec, k, v⟩ :: ts) := by
  unfold iniParse
  have hskip := skipToFirstReadableChar_length s
  conv_lhs => unfold iniParseFuel
  cases hss : skipToFirstReadableChar s with
  | nil => rfl
  | cons c rest =>
    rw [hss] at hskip
    simp only [List.length_cons] at hskip
    simp only
    by_cases hc1 : c = '['
    · rw [if_pos hc1, if_pos hc1]
      cases hp : parseSection (c :: rest) with
      | error e => rfl
      | ok p =>
        obtain ⟨sec2, r2⟩ := p
        have hlen := parseSection_length hp
        simp only [List.length_cons] at hlen
        exact iniParseFuel_congr s.length (r2.length + 1) sec2 r2 (by omega) (by omega)
    · rw [if_neg hc1, if_neg hc1]
      by_cases hc2 : c = ';'
      · rw [if_pos hc2, if_pos hc2]
        have hnl := nextLine_length rest
        rw [nextLine_cons rest (by rw [hc2]; decide)]
        exact iniParseFuel_congr s.length ((nextLine rest).length + 1) sec (nextLine rest)
          (by omega) (by omega)
      · rw [if_neg hc2, if_neg hc2]
        cases hk : parseName (c :: rest) with
        | error e => rfl
        | ok p =>
          obtain ⟨k, r1⟩ := p
          dsimp only
          have hl1 := parseName_length hk
          simp only [List.length_cons] at hl1
          cases he : skipEquality r1 with
          | error e => rfl
          | ok r2 =>
            dsimp only
            have hl2 := skipEquality_length he
            cases hv : parseValue r2 with
            | error e => rfl
            | ok q =>
              obtain ⟨v, r3⟩ := q
              dsimp only
              have hl3 := parseValue_length hv
              rw [iniParseFuel_congr s.length (r3.length + 1) sec r3 (by omega) (by omega)]

theorem writeLoopFuel_congr (f1 : Nat) : ∀ (f2 cap : Nat) (acc : List Char) (rem : List Triple),
    rem.length < f1 → rem.length < f2 →
    writeLoopFuel f1 cap acc rem = writeLoopFuel f2 cap acc rem := by
  induction f1 with
  | zero => intro f2 cap acc rem h1; omega
  | succ g1 ih =>
    intro f2 cap acc rem h1 h2
    cases f2 with
    | zero => omega
    | succ g2 =>
      unfold writeLoopFuel
      cases rem with
      | nil => rfl
      | cons t rest =>
        dsimp only
        cases hb : bprints cap acc (groupPieces (t :: rest) t.sec) with
        | error e => rfl
        | ok acc2 =>
          have hf : (rest.filter (fun u => ¬(u.sec = t.sec))).length ≤ rest.length :=
            List.length_filter_le _ _
          simp only [List.length_cons] at h1 h2
          exact ih g2 cap acc2 _ (by omega) (by omega)

/-- The loop equation of `CE_INI_Write`'s `do … while`. -/
theorem writeLoop_unfold (cap : Nat) (acc : List Char) (rem : List Triple) :
    writeLoop cap acc rem =
      match rem with
      | [] => bprint cap acc ['\n']
      | t :: rest =>
        match bprints cap acc (groupPieces (t :: rest) t.sec) with
        | .error e => .error e
        | .ok acc2 => writeLoop cap acc2 (rest.filter (fun u => ¬(u.sec = t.sec))) := by
  unfold writeLoop
  conv_lhs => unfold writeLoopFuel
  cases rem with
  | nil => rfl
  | cons t rest =>
    dsimp only
    cases hb : bprints cap acc (groupPieces (t :: rest) t.sec) with
    | error e => rfl
    | ok acc2 =>
      have hf : (rest.filter (fun u => ¬(u.sec = t.sec))).length ≤ rest.length :=
        List.length_filter_le _ _
      exact writeLoopFuel_congr _ _ cap acc2 _ (by simp only [List.length_cons]; omega)
        (by omega)

theorem sectionOrderFuel_congr (f1 : Nat) : ∀ (f2 : Nat) (l : List (List Char)),
    l.length < f1 → l.length < f2 →
    sectionOrderFuel f1 l = sectionOrderFuel f2 l := by
  induction f1 with
  | zero => intro f2 l h1; omega
  | succ g1 ih =>
    intro f2 l h1 h2
    cases f2 with
    | zero => omega
    | succ g2 =>
      unfold sectionOrderFuel
      cases l with
      | nil => rfl
      | cons s rest =>
        dsimp only
        have hf : (rest.filter (fun u => ¬(u = s))).length ≤ rest.length :=
          List.length_filter_le _ _
        simp only [List.length_cons] at h1 h2
        rw [ih g2 _ (by omega) (by omega)]

theorem sectionOrder_nil : sectionOrder [] = [] := rfl

theorem sectionOrder_cons (s : List Char) (rest : List (List Char)) :
    sectionOrder (s :: rest) = s :: sectionOrder (rest.filter (fun u => ¬(u = s))) := by
  unfold sectionOrder
  conv_lhs => unfold sectionOrderFuel
  dsimp only
  have hf : (rest.filter (fun u => ¬(u = s))).length ≤ rest.length :=
    List.length_filter_le _ _
  rw [sectionOrderFuel_congr (s :: rest).length
    ((rest.filter (fun u => ¬(u = s))).length + 1) (rest.filter (fun u => ¬(u = s)))
    (by simp only [List.length_cons]; omega) (by omega)]

theorem bprint_ok {cap : Nat} {acc s out : List Char} (h : bprint cap acc s = .ok out) :
    out = acc ++ s := by
  unfold bprint at h
  split at h
  · cases h; simp [*]
  · split at h
    · cases h; rfl
    · exact absurd h (by simp)

theorem bprints_ok {cap : Nat} {acc out : List Char} {l : List (List Char)}
    (h : bprints cap acc l = .ok out) : out = acc ++ l.flatten := by
  induction l generalizing acc with
  | nil => cases h; simp
  | cons s rest ih =>
    unfold bprints at h
    split at h
    · exact absurd h (by simp)
    next acc2 hb =>
      rw [ih h, bprint_ok hb]
      simp

theorem filter_map_comm {α β : Type} (f : α → β) (p : β → Bool) (l : List α) :
    (l.map f).filter p = (l.filter (fun a => p (f a))).map f := by
  induction l with
  | nil => rfl
  | cons a l ih =>
    simp only [List.map_cons, List.filter_cons]
    cases hp : p (f a) <;> simp [hp, ih]

theorem mem_sectionOrder_aux (m : Nat) : ∀ (l : List (List Char)), l.length ≤ m →
    ∀ {t : List Char}, (t ∈ sectionOrder l ↔ t ∈ l) := by
  induction m with
  | zero =>
    intro l hl t
    have : l = [] := List.length_eq_zero.mp (Nat.le_antisymm hl (Nat.zero_le _))
    subst this
    rw [sectionOrder_nil]
  | succ m ih =>
    intro l hl t
    cases l with
    | nil => rw [sectionOrder_nil]
    | cons s rest =>
      rw [sectionOrder_cons]
      simp only [List.mem_cons]
      constructor
      · rintro (rfl | h)
        · exact Or.inl rfl
        · have hm := (ih _ (Nat.le_trans (List.length_filter_le _ _)
            (by simp only [List.length_cons] at hl; omega))).mp h
          exact Or.inr (List.mem_of_mem_filter hm)
      · rintro (rfl | h)
        · exact Or.inl rfl
        · by_cases hts : t = s
          · exact Or.inl hts
          · refine Or.inr ((ih _ (Nat.le_trans (List.length_filter_le _ _)
              (by simp only [List.length_cons] at hl; omega))).mpr ?_)
            exact List.mem_filter.mpr ⟨h, by simpa using hts⟩

theorem mem_sectionOrder {l : List (List Char)} {t : List Char} :
    t ∈ sectionOrder l ↔ t ∈ l :=
  mem_sectionOrder_aux l.length l (Nat.le_refl _)

theorem sectionOrder_nodup_aux (m : Nat) : ∀ (l : List (List Char)), l.length ≤ m →
    (sectionOrder l).Nodup := by
  induction m with
  | zero =>
    intro l hl
    have : l = [] := List.length_eq_zero.mp (Nat.le_antisymm hl (Nat.zero_le _))
    subst this
    rw [sectionOrder_nil]
    exact List.nodup_nil
  | succ m ih =>
    intro l hl
    cases l with
    | nil => rw [sectionOrder_nil]; exact List.nodup_nil
    | cons s rest =>
      rw [sectionOrder_cons]
      refine List.nodup_cons.mpr ⟨fun hmem => ?_, ih _ (Nat.le_trans (List.length_filter_le _ _)
        (by simp only [List.length_cons] at hl; omega))⟩
      have := (List.mem_filter.mp (mem_sectionOrder.mp hmem)).2
      simp at this

theorem sectionOrder_nodup (l : List (List Char)) : (sectionOrder l).Nodup :=
  sectionOrder_nodup_aux l.length l (Nat.le_refl _)

theorem entryPieces_flatten (l : List Triple) :
    ((l.map entryPieces).flatten).flatten = (l.map entryLine).flatten := by
  induction l with
  | nil => rfl
  | cons t rest ih =>
    simp only [List.map_cons, List.flatten_cons]
    rw [List.flatten_append, ih]
    simp [entryPieces, entryLine]

theorem groupPieces_flatten (rem : List Triple) (s : List Char) :
    (groupPieces rem s).flatten = groupText rem s := by
  unfold groupPieces groupText
  simp only [List.append_assoc, List.flatten_append, List.flatten_cons]
  rw [entryPieces_flatten]
  simp

theorem groupText_congr {t : Triple} {rest : List Triple} {s : List Char}
    (hne : ¬(s = t.sec)) :
    groupText (t :: rest) s = groupText (rest.filter (fun u => ¬(u.sec = t.sec))) s := by
  unfold groupText
  have h1 : (t :: rest).filter (fun u => u.sec = s) = rest.filter (fun u => u.sec = s) := by
    rw [List.filter_cons_of_neg]
    simp only [decide_eq_true_eq]
    intro hc
    exact hne hc.symm
  have h2 : (rest.filter (fun u => ¬(u.sec = t.sec))).filter (fun u => u.sec = s) =
      rest.filter (fun u => u.sec = s) := by
    rw [List.filter_filter]
    refine List.filter_congr fun u _ => ?_
    by_cases hu : u.sec = s
    · have hut : ¬(u.sec = t.sec) := fun hc => hne (by rw [← hu, hc])
      simp [hu, hut, hne]
    · simp [hu]
  rw [h1, h2]

theorem writeLoop_spec_aux (m : Nat) : ∀ (rem : List Triple), rem.length ≤ m →
    ∀ {cap : Nat} {acc out : List Char}, writeLoop cap acc rem = .ok out →
    out = acc ++ (((sectionOrder (rem.map Triple.sec)).map (groupText rem)).flatten ++ ['\n']) := by
  induction m with
  | zero =>
    intro rem hl cap acc out h
    have : rem = [] := List.length_eq_zero.mp (Nat.le_antisymm hl (Nat.zero_le _))
    subst this
    rw [writeLoop_unfold] at h
    rw [bprint_ok h]
    simp [sectionOrder_nil]
  | succ m ih =>
    intro rem hl cap acc out h
    cases rem with
    | nil =>
      rw [writeLoop_unfold] at h
      rw [bprint_ok h]
      simp [sectionOrder_nil]
    | cons t rest =>
      rw [writeLoop_unfold] at h
      dsimp only at h
      split at h
      · exact absurd h (by simp)
      next acc2 hb =>
        have hlen : (rest.filter (fun u => ¬(u.sec = t.sec))).length ≤ m :=
          Nat.le_trans (List.length_filter_le _ _)
            (by simp only [List.length_cons] at hl; omega)
        rw [ih _ hlen h, bprints_ok hb, groupPieces_flatten]
        have hso : sectionOrder ((t :: rest).map Triple.sec) =
            t.sec :: sectionOrder ((rest.filter (fun u => ¬(u.sec = t.sec))).map Triple.sec) := by
          rw [List.map_cons, sectionOrder_cons, filter_map_comm]
        rw [hso]
        simp only [List.map_cons, List.flatten_cons]
        have hmap : (sectionOrder ((rest.filter (fun u => ¬(u.sec = t.sec))).map
            Triple.sec)).map (groupText (t :: rest)) =
            (sectionOrder ((rest.filter (fun u => ¬(u.sec = t.sec))).map Triple.sec)).map
              (groupText (rest.filter (fun u => ¬(u.sec = t.sec)))) := by
          refine List.map_congr_left fun s hs => ?_
          have hsmem := mem_sectionOrder.mp hs
          obtain ⟨u, hu, rfl⟩ := List.mem_map.mp hsmem
          have := (List.mem_filter.mp hu).2
          simp only [decide_eq_true_eq] at this
          exact groupText_congr (by simpa using this)
        rw [hmap]
        simp [List.append_assoc]

/-- `CE_INI_Write`'s emitted text equals the specified grouping. -/
theorem writeLoop_spec {cap : Nat} {opts : List Triple} {out : List Char}
    (h : writeLoop cap [] opts = .ok out) : out = specWrite opts := by
  have := writeLoop_spec_aux opts.length opts (Nat.le_refl _) h
  simpa [specWrite] using this

theorem trimTrailingSpaces_getLast? (l : List Char) :
    (trimTrailingSpaces l).getLast? ≠ some ' ' := by
  unfold trimTrailingSpaces
  rw [List.getLast?_reverse]
  generalize l.reverse = m
  induction m with
  | nil => simp
  | cons c m ih =>
    rw [List.dropWhile_cons]
    split
    · exact ih
    next hc =>
      simp only [List.head?_cons, ne_eq, Option.some.injEq]
      intro hcsp
      exact hc (by simp [hcsp])

/-! ### Run lemmas for the accumulation loops

Each loop consumes a prefix of characters of its class, adding them to the
accumulator, as long as the length counter stays within the bound; one
character past the bound it fails with its `…TooLong` error. -/

theorem sectionCharOk_spell (c : Char) :
    sectionCharOk c = (isalnum c || c == '-' || c == '_' || c == ' ') := rfl

theorem keyCharOk_spell (c : Char) :
    keyCharOk c = (isalnum c || c == '.' || c == '-' || c == '_') := rfl

theorem uvCharOk_not_term {c : Char} (h : uvCharOk c = true) :
    ¬((c = '\n' || c = '\r' || c = ';') = true) := by
  intro hterm
  simp only [Bool.or_eq_true, decide_eq_true_eq] at hterm
  rcases hterm with (rfl | rfl) | rfl <;> exact absurd h (by decide)

theorem uvCharOk_print {c : Char} (h : uvCharOk c = true) :
    (isprint c || c = '\t') = true := by
  simp only [uvCharOk, Bool.and_eq_true] at h
  exact h.1

theorem sectionLoop_consume (l : List Char) : ∀ (n : Nat) (acc s : List Char),
    (∀ c ∈ l, sectionCharOk c = true) → n + l.length ≤ 31 →
    sectionLoop n acc (l ++ s) = sectionLoop (n + l.length) (acc ++ l) s := by
  induction l with
  | nil => intro n acc s _ _; simp
  | cons c l ih =>
    intro n acc s hc hlen
    have hcv : sectionCharOk c = true := hc c (List.mem_cons_self c l)
    have hne : ¬(c = ']') := by rintro rfl; exact absurd hcv (by decide)
    simp only [List.length_cons] at hlen
    rw [List.cons_append]
    conv_lhs => unfold sectionLoop
    rw [if_neg hne,
      if_neg (not_not_intro (sectionCharOk_spell c ▸ hcv)),
      if_neg (not_not_intro (show n < 31 by omega)),
      ih (n + 1) (acc ++ [c]) s (fun d hd => hc d (List.mem_cons_of_mem c hd)) (by omega)]
    congr 1
    · simp only [List.length_cons]
      omega
    · simp

theorem sectionLoop_tooLong (l : List Char) : ∀ (n : Nat) (acc s : List Char),
    (∀ c ∈ l, sectionCharOk c = true) → 31 < n + l.length → l ≠ [] →
    sectionLoop n acc (l ++ s) = .error .sectionTooLong := by
  induction l with
  | nil => intro n acc s _ _ hne; exact absurd rfl hne
  | cons c l ih =>
    intro n acc s hc hlen _
    have hcv : sectionCharOk c = true := hc c (List.mem_cons_self c l)
    have hne : ¬(c = ']') := by rintro rfl; exact absurd hcv (by decide)
    simp only [List.length_cons] at hlen
    rw [List.cons_append]
    conv_lhs => unfold sectionLoop
    rw [if_neg hne, if_neg (not_not_intro (sectionCharOk_spell c ▸ hcv))]
    by_cases hn : n < 31
    · rw [if_neg (not_not_intro hn)]
      refine ih (n + 1) (acc ++ [c]) s (fun d hd => hc d (List.mem_cons_of_mem c hd))
        (by omega) ?_
      intro hnil
      rw [hnil] at hlen
      simp at hlen
      omega
    · rw [if_pos hn]

theorem nameLoop_consume (l : List Char) : ∀ (n : Nat) (acc s : List Char),
    (∀ c ∈ l, keyCharOk c = true) → n + l.length ≤ 31 →
    nameLoop n acc (l ++ s) = nameLoop (n + l.length) (acc ++ l) s := by
  induction l with
  | nil => intro n acc s _ _; simp
  | cons c l ih =>
    intro n acc s hc hlen
    have hcv : keyCharOk c = true := hc c (List.mem_cons_self c l)
    have hne : ¬(c = ' ' ∨ c = '=') := by
      rintro (rfl | rfl) <;> exact absurd hcv (by decide)
    simp only [List.length_cons] at hlen
    rw [List.cons_append]
    conv_lhs => unfold nameLoop
    rw [if_neg (by simpa using hne),
      if_neg (not_not_intro (keyCharOk_spell c ▸ hcv)),
      if_neg (not_not_intro (show n < 31 by omega)),
      ih (n + 1) (acc ++ [c]) s (fun d hd => hc d (List.mem_cons_of_mem c hd)) (by omega)]
    congr 1
    · simp only [List.length_cons]
      omega
    · simp

theorem nameLoop_tooLong (l : List Char) : ∀ (n : Nat) (acc s : List Char),
    (∀ c ∈ l, keyCharOk c = true) → 31 < n + l.length → l ≠ [] →
    nameLoop n acc (l ++ s) = .error .keyTooLong := by
  induction l with
  | nil => intro n acc s _ _ hne; exact absurd rfl hne
  | cons c l ih =>
    intro n acc s hc hlen _
    have hcv : keyCharOk c = true := hc c (List.mem_cons_self c l)
    have hne : ¬(c = ' ' ∨ c = '=') := by
      rintro (rfl | rfl) <;> exact absurd hcv (by decide)
    simp only [List.length_cons] at hlen
    rw [List.cons_append]
    conv_lhs => unfold nameLoop
    rw [if_neg (by simpa using hne), if_neg (not_not_intro (keyCharOk_spell c ▸ hcv))]
    by_cases hn : n < 31
    · rw [if_neg (not_not_intro hn)]
      refine ih (n + 1) (acc ++ [c]) s (fun d hd => hc d (List.mem_cons_of_mem c hd))
        (by omega) ?_
      intro hnil
      rw [hnil] at hlen
      simp at hlen
      omega
    · rw [if_pos hn]

theorem unqLoop_consume (l : List Char) : ∀ (n : Nat) (acc s : List Char),
    (∀ c ∈ l, uvCharOk c = true) → n + l.length ≤ 63 →
    unqLoop n acc (l ++ s) = unqLoop (n + l.length) (acc ++ l) s := by
  induction l with
  | nil => intro n acc s _ _; simp
  | cons c l ih =>
    intro n acc s hc hlen
    have hcv : uvCharOk c = true := hc c (List.mem_cons_self c l)
    simp only [List.length_cons] at hlen
    rw [List.cons_append]
    conv_lhs => unfold unqLoop
    rw [if_neg (uvCharOk_not_term hcv),
      if_neg (not_not_intro (uvCharOk_print hcv)),
      if_neg (not_not_intro (show n < 63 by omega)),
      ih (n + 1) (acc ++ [c]) s (fun d hd => hc d (List.mem_cons_of_mem c hd)) (by omega)]
    congr 1
    · simp only [List.length_cons]
      omega
    · simp

theorem unqLoop_tooLong (l : List Char) : ∀ (n : Nat) (acc s : List Char),
    (∀ c ∈ l, uvCharOk c = true) → 63 < n + l.length → l ≠ [] →
    unqLoop n acc (l ++ s) = .error .valueTooLong := by
  induction l with
  | nil => intro n acc s _ _ hne; exact absurd rfl hne
  | cons c l ih =>
    intro n acc s hc hlen _
    have hcv : uvCharOk c = true := hc c (List.mem_cons_self c l)
    simp only [List.length_cons] at hlen
    rw [List.cons_append]
    conv_lhs => unfold unqLoop
    rw [if_neg (uvCharOk_not_term hcv), if_neg (not_not_intro (uvCharOk_print hcv))]
    by_cases hn : n < 63
    · rw [if_neg (not_not_intro hn)]
      refine ih (n + 1) (acc ++ [c]) s (fun d hd => hc d (List.mem_cons_of_mem c hd))
        (by omega) ?_
      intro hnil
      rw [hnil] at hlen
      simp at hlen
      omega
    · rw [if_pos hn]

theorem qvCharOk_uv {c : Char} (h : qvCharOk c = true) : uvCharOk c = true := by
  simp only [qvCharOk, Bool.and_eq_true] at h
  exact h.1.1

theorem qvCharOk_props {c : Char} (h : qvCharOk c = true) :
    ¬(c = '"') ∧ ¬(c = '\\') := by
  simp only [qvCharOk, Bool.and_eq_true, Bool.not_eq_true', decide_eq_false_iff_not] at h
  exact ⟨h.1.2, h.2⟩

theorem qLoop_consume (l : List Char) : ∀ (n : Nat) (acc s : List Char),
    (∀ c ∈ l, qvCharOk c = true) → n + l.length ≤ 63 →
    qLoop n acc (l ++ s) = qLoop (n + l.length) (acc ++ l) s := by
  induction l with
  | nil => intro n acc s _ _; simp
  | cons c l ih =>
    intro n acc s hc hlen
    have hcv : qvCharOk c = true := hc c (List.mem_cons_self c l)
    simp only [List.length_cons] at hlen
    rw [List.cons_append]
    conv_lhs => unfold qLoop
    rw [if_neg (uvCharOk_not_term (qvCharOk_uv hcv)),
      if_neg (qvCharOk_props hcv).1, if_neg (qvCharOk_props hcv).2,
      if_neg (not_not_intro (uvCharOk_print (qvCharOk_uv hcv))),
      if_neg (not_not_intro (show n < 63 by omega)),
      ih (n + 1) (acc ++ [c]) s (fun d hd => hc d (List.mem_cons_of_mem c hd)) (by omega)]
    congr 1
    · simp only [List.length_cons]
      omega
    · simp

theorem qLoop_tooLong (l : List Char) : ∀ (n : Nat) (acc s : List Char),
    (∀ c ∈ l, qvCharOk c = true) → 63 < n + l.length → l ≠ [] →
    qLoop n acc (l ++ s) = .error .valueTooLong := by
  induction l with
  | nil => intro n acc s _ _ hne; exact absurd rfl hne
  | cons c l ih =>
    intro n acc s hc hlen _
    have hcv : qvCharOk c = true := hc c (List.mem_cons_self c l)
    simp only [List.length_cons] at hlen
    rw [List.cons_append]
    conv_lhs => unfold qLoop
    rw [if_neg (uvCharOk_not_term (qvCharOk_uv hcv)),
      if_neg (qvCharOk_props hcv).1, if_neg (qvCharOk_props hcv).2,
      if_neg (not_not_intro (uvCharOk_print (qvCharOk_uv hcv)))]
    by_cases hn : n < 63
    · rw [if_neg (not_not_intro hn)]
      refine ih (n + 1) (acc ++ [c]) s (fun d hd => hc d (List.mem_cons_of_mem c hd))
        (by omega) ?_
      intro hnil
      rw [hnil] at hlen
      simp at hlen
      omega
    · rw [if_pos hn]

theorem sectionLoop_close (n : Nat) (acc r : List Char) :
    sectionLoop n acc (']' :: r) = .ok (acc, r) := by
  unfold sectionLoop
  simp

theorem nameLoop_stop {c : Char} (n : Nat) (acc r : List Char)
    (hterm : c = ' ' ∨ c = '=') (hn : n ≠ 0) :
    nameLoop n acc (c :: r) = .ok (acc, c :: r) := by
  unfold nameLoop
  rw [if_pos (by simpa using hterm), if_neg hn]

theorem unqLoop_stop {c : Char} (n : Nat) (acc r : List Char)
    (hterm : c = '\n' ∨ c = '\r' ∨ c = ';') :
    unqLoop n acc (c :: r) = .ok (acc, c :: r) := by
  unfold unqLoop
  rw [if_pos (by simp only [Bool.or_eq_true, decide_eq_true_eq]; tauto)]

theorem qLoop_close (n : Nat) (acc r : List Char) :
    qLoop n acc ('"' :: r) = .ok (acc, r) := by
  unfold qLoop
  simp

/-! ### Re-parsing the serializer's output

These lemmas drive the parser over the text `CE_INI_Write` generates:
headers parse back to their section, `key=value` lines parse back to their
key and value (when the value is re-serializable), blank lines are
skipped. -/

theorem skipToFirstReadableChar_cons_readable {c : Char} (s : List Char)
    (h : (iscntrl c || c == ' ') = false) :
    skipToFirstReadableChar (c :: s) = c :: s := by
  unfold skipToFirstReadableChar
  rw [if_neg (by simp [h])]

theorem skipToFirstReadableChar_cons_skip {c : Char} (s : List Char)
    (h : (iscntrl c || c == ' ') = true) :
    skipToFirstReadableChar (c :: s) = skipToFirstReadableChar s := by
  conv_lhs => unfold skipToFirstReadableChar
  rw [if_pos h]

theorem iniParse_skip_cons {c : Char} (σ s : List Char)
    (h : (iscntrl c || c == ' ') = true) :
    iniParse σ (c :: s) = iniParse σ s := by
  rw [iniParse_unfold σ (c :: s), iniParse_unfold σ s,
    skipToFirstReadableChar_cons_skip s h]

theorem skipWhitespace_cons_stop {c : Char} (s : List Char)
    (h : (c ≠ '\n' && (iscntrl c || c == ' ')) = false) :
    skipWhitespace (c :: s) = c :: s := by
  unfold skipWhitespace
  rw [if_neg (show ¬((c ≠ '\n' && (iscntrl c || c == ' ')) = true) by rw [h]; simp)]

theorem keyCharOk_bounds {c : Char} (h : keyCharOk c = true) :
    33 ≤ c.toNat ∧ c.toNat ≤ 126 := by
  simp only [keyCharOk, isalnum, Bool.or_eq_true, Bool.and_eq_true,
    decide_eq_true_eq, beq_iff_eq] at h
  rcases h with ((((h | h) | h) | h) | h) | h
  · omega
  · omega
  · omega
  · subst h; decide
  · subst h; decide
  · subst h; decide

theorem keyCharOk_readable {c : Char} (h : keyCharOk c = true) :
    (iscntrl c || c == ' ') = false := by
  have hb := keyCharOk_bounds h
  have h1 : iscntrl c = false := by simp only [iscntrl]; simp; omega
  have h2 : (c == ' ') = false := by
    simp only [beq_eq_false_iff_ne, ne_eq]
    intro hc
    rw [hc] at hb
    revert hb
    decide
  simp [h1, h2]

theorem keyCharOk_not_special {c : Char} (h : keyCharOk c = true) :
    ¬(c = '[') ∧ ¬(c = ';') := by
  constructor <;> (rintro rfl; exact absurd h (by decide))

theorem trimTrailingSpaces_eq_self {l : List Char} (h : l.getLast? ≠ some ' ') :
    trimTrailingSpaces l = l := by
  unfold trimTrailingSpaces
  rw [← List.head?_reverse] at h
  cases hr : l.reverse with
  | nil =>
    have : l = [] := by simpa using congrArg List.reverse hr
    simp [this]
  | cons c m =>
    rw [hr] at h
    simp only [List.head?_cons, ne_eq, Option.some.injEq] at h
    rw [List.dropWhile_cons_of_neg (by simpa using h), ← hr, List.reverse_reverse]

theorem parseValue_not_quoted {s : List Char} (h : ∀ c, s.head? = some c → ¬(c = '"')) :
    parseValue s = parseUnquotedValue s := by
  cases s with
  | nil => rfl
  | cons c s2 =>
    unfold parseValue
    split
    next heq =>
      injection heq with h1 h2
      exact absurd h1 (h c rfl)
    next => rfl

/-- A good section re-parses from its written header: `parseSection` on
`[sec]` followed by anything returns `sec`. -/
theorem parseSection_run {l : List Char} (r : List Char) (hg : goodSec l) :
    parseSection ('[' :: (l ++ ']' :: r)) = .ok (l, r) := by
  show sectionLoop 0 [] (l ++ ']' :: r) = _
  rw [sectionLoop_consume l 0 [] (']' :: r) hg.1 (by have := hg.2; omega), sectionLoop_close]
  simp

/-- A good key re-parses up to the `'='`. -/
theorem parseName_run {l : List Char} (r : List Char) (hg : goodKey l) :
    parseName (l ++ '=' :: r) = .ok (l, '=' :: r) := by
  show nameLoop 0 [] (l ++ '=' :: r) = _
  rw [nameLoop_consume l 0 [] ('=' :: r) hg.2.1 (by have := hg.2.2; omega),
    nameLoop_stop _ _ _ (Or.inr rfl) (by simpa using hg.1)]
  simp

/-- `skipEquality` consumes the written `'='` and stops right at a good
value (or at the `'\n'` of an empty value). -/
theorem skipEquality_run {v : List Char} (r : List Char) (hg : goodVal v) :
    skipEquality ('=' :: (v ++ '\n' :: r)) = .ok (v ++ '\n' :: r) := by
  unfold skipEquality
  rw [skipWhitespace_cons_stop _ (by decide)]
  have hv : skipWhitespace (v ++ '\n' :: r) = v ++ '\n' :: r := by
    cases v with
    | nil => exact skipWhitespace_cons_stop _ (by decide)
    | cons c v2 =>
      have hh := hg.2.1 c rfl
      rw [List.cons_append]
      refine skipWhitespace_cons_stop _ ?_
      simp only [Bool.and_eq_false_iff]
      right
      simp [hh.1, hh.2.1]
  split
  next rest heq =>
    injection heq with h1 h2
    rw [← h2, hv]
  next hnm =>
    exact (hnm (v ++ '\n' :: r) rfl).elim

/-- A good value re-parses unchanged from its raw written form up to the
line's `'\n'`. -/
theorem parseValue_run {v : List Char} (r : List Char) (hg : goodVal v) :
    parseValue (v ++ '\n' :: r) = .ok (v, '\n' :: r) := by
  rw [parseValue_not_quoted]
  · unfold parseUnquotedValue
    rw [unqLoop_consume v 0 [] ('\n' :: r) hg.1 (by have := hg.2.2.2; omega),
      unqLoop_stop _ _ _ (Or.inl rfl)]
    simp only [List.nil_append]
    rw [trimTrailingSpaces_eq_self hg.2.2.1]
  · intro c hc
    cases v with
    | nil =>
      simp only [List.nil_append, List.head?_cons, Option.some.injEq] at hc
      subst hc
      decide
    | cons c0 v2 =>
      simp only [List.cons_append, List.head?_cons, Option.some.injEq] at hc
      subst hc
      exact (hg.2.1 _ rfl).2.2

theorem sectionLoop_good (s : List Char) : ∀ (n : Nat) (acc : List Char) {sec r : List Char},
    sectionLoop n acc s = .ok (sec, r) → (∀ c ∈ acc, sectionCharOk c = true) →
    acc.length = n → n ≤ 31 →
    (∀ c ∈ sec, sectionCharOk c = true) ∧ sec.length ≤ 31 := by
  induction s with
  | nil =>
    intro n acc sec r h
    exact absurd h (by simp [sectionLoop])
  | cons c s ih =>
    intro n acc sec r h hacc hlen hbound
    unfold sectionLoop at h
    split at h
    · cases h
      exact ⟨hacc, by omega⟩
    · split at h
      · exact absurd h (by simp)
      next hvalid =>
        split at h
        · exact absurd h (by simp)
        next hn =>
          refine ih (n + 1) (acc ++ [c]) h ?_ (by simp [hlen]) (by omega)
          intro d hd
          rcases List.mem_append.mp hd with hd | hd
          · exact hacc d hd
          · rw [List.mem_singleton.mp hd]
            exact sectionCharOk_spell c ▸ not_not.mp hvalid

theorem parseSection_good {s sec r : List Char}
    (h : parseSection s = .ok (sec, r)) : goodSec sec := by
  unfold parseSection at h
  split at h
  next s2 => exact sectionLoop_good s2 0 [] h (by simp) rfl (by omega)
  next => exact absurd h (by simp)

theorem nameLoop_good (s : List Char) : ∀ (n : Nat) (acc : List Char) {k r : List Char},
    nameLoop n acc s = .ok (k, r) → (∀ c ∈ acc, keyCharOk c = true) →
    acc.length = n → n ≤ 31 →
    goodKey k := by
  induction s with
  | nil =>
    intro n acc k r h hacc hlen hbound
    unfold nameLoop at h
    split at h
    · exact absurd h (by simp)
    next hn =>
      cases h
      exact ⟨by intro he; rw [he] at hlen; simp at hlen; omega, hacc, by omega⟩
  | cons c s ih =>
    intro n acc k r h hacc hlen hbound
    unfold nameLoop at h
    split at h
    · split at h
      · exact absurd h (by simp)
      next hn =>
        cases h
        exact ⟨by intro he; rw [he] at hlen; simp at hlen; omega, hacc, by omega⟩
    · split at h
      · exact absurd h (by simp)
      next hvalid =>
        split at h
        · exact absurd h (by simp)
        next hn =>
          refine ih (n + 1) (acc ++ [c]) h ?_ (by simp [hlen]) (by omega)
          intro d hd
          rcases List.mem_append.mp hd with hd | hd
          · exact hacc d hd
          · rw [List.mem_singleton.mp hd]
            exact keyCharOk_spell c ▸ not_not.mp hvalid

theorem parseName_good {s k r : List Char}
    (h : parseName s = .ok (k, r)) : goodKey k :=
  nameLoop_good s 0 [] h (by simp) rfl (by omega)

/-- Every triple a parse delivers has either the initial section-buffer
contents or a well-formed parsed section, and a well-formed key. -/
theorem iniParse_sections_aux (m : Nat) : ∀ (s : List Char), s.length ≤ m →
    ∀ (σ : List Char) {ts : List Triple}, iniParse σ s = .ok ts →
    ∀ t ∈ ts, (t.sec = σ ∨ goodSec t.sec) ∧ goodKey t.key := by
  induction m with
  | zero =>
    intro s hs σ ts h t ht
    have : s = [] := List.length_eq_zero.mp (Nat.le_antisymm hs (Nat.zero_le _))
    subst this
    cases (show ts = [] by cases h; rfl)
    simp at ht
  | succ m ih =>
    intro s hs σ ts h t ht
    have hskip := skipToFirstReadableChar_length s
    rw [iniParse_unfold] at h
    cases hss : skipToFirstReadableChar s with
    | nil =>
      rw [hss] at h
      cases (show ts = [] by cases h; rfl)
      simp at ht
    | cons c rest =>
      rw [hss] at h
      rw [hss] at hskip
      simp only [List.length_cons] at hskip
      dsimp only at h
      by_cases hc1 : c = '['
      · rw [if_pos hc1] at h
        cases hp : parseSection (c :: rest) with
        | error e => rw [hp] at h; exact absurd h (by simp)
        | ok p =>
          rw [hp] at h
          obtain ⟨sec2, r2⟩ := p
          dsimp only at h
          have hr2 := parseSection_length hp
          simp only [List.length_cons] at hr2
          have hres := ih r2 (by omega) sec2 h t ht
          refine ⟨?_, hres.2⟩
          rcases hres.1 with heq | hgood
          · exact Or.inr (heq ▸ parseSection_good hp)
          · exact Or.inr hgood
      · rw [if_neg hc1] at h
        by_cases hc2 : c = ';'
        · rw [if_pos hc2] at h
          have hnl := nextLine_length rest
          rw [nextLine_cons rest (by rw [hc2]; decide)] at h
          exact ih _ (by omega) σ h t ht
        · rw [if_neg hc2] at h
          cases hk : parseName (c :: rest) with
          | error e => rw [hk] at h; exact absurd h (by simp)
          | ok p =>
            rw [hk] at h
            obtain ⟨k, r1⟩ := p
            dsimp only at h
            have hr1 := parseName_length hk
            simp only [List.length_cons] at hr1
            cases he : skipEquality r1 with
            | error e => rw [he] at h; exact absurd h (by simp)
            | ok r2 =>
              rw [he] at h
              dsimp only at h
              have hr2e := skipEquality_length he
              cases hv : parseValue r2 with
              | error e => rw [hv] at h; exact absurd h (by simp)
              | ok q =>
                rw [hv] at h
                obtain ⟨v, r3⟩ := q
                dsimp only at h
                have hr3 := parseValue_length hv
                cases hrec : iniParse σ r3 with
                | error e => rw [hrec] at h; exact absurd h (by simp)
                | ok ts2 =>
                  rw [hrec] at h
                  dsimp only at h
                  cases h
                  rcases List.mem_cons.mp ht with rfl | ht2
                  · exact ⟨Or.inl rfl, parseName_good hk⟩
                  · exact ih r3 (by omega) σ hrec t ht2

theorem iniParse_sections {s σ : List Char} {ts : List Triple}
    (h : iniParse σ s = .ok ts) :
    ∀ t ∈ ts, (t.sec = σ ∨ goodSec t.sec) ∧ goodKey t.key :=
  iniParse_sections_aux s.length s (Nat.le_refl _) σ h

theorem specWrite_cons (t : Triple) (rest : List Triple) :
    specWrite (t :: rest) =
      groupText (t :: rest) t.sec ++
        specWrite (rest.filter (fun u => ¬(u.sec = t.sec))) := by
  unfold specWrite
  rw [List.map_cons, sectionOrder_cons, filter_map_comm]
  simp only [List.map_cons, List.flatten_cons]
  have hmap : (sectionOrder ((rest.filter (fun u => ¬(u.sec = t.sec))).map
      Triple.sec)).map (groupText (t :: rest)) =
      (sectionOrder ((rest.filter (fun u => ¬(u.sec = t.sec))).map Triple.sec)).map
        (groupText (rest.filter (fun u => ¬(u.sec = t.sec)))) := by
    refine List.map_congr_left fun s hs => ?_
    obtain ⟨u, hu, rfl⟩ := List.mem_map.mp (mem_sectionOrder.mp hs)
    have := (List.mem_filter.mp hu).2
    simp only [decide_eq_true_eq] at this
    exact groupText_congr (by simpa using this)
  rw [hmap]
  simp [List.append_assoc]

theorem groupedTriples_cons (t : Triple) (rest : List Triple) :
    groupedTriples (t :: rest) =
      (t :: rest).filter (fun u => u.sec = t.sec) ++
        groupedTriples (rest.filter (fun u => ¬(u.sec = t.sec))) := by
  unfold groupedTriples
  rw [List.map_cons, sectionOrder_cons, filter_map_comm]
  simp only [List.map_cons, List.flatten_cons]
  have hmap : (sectionOrder ((rest.filter (fun u => ¬(u.sec = t.sec))).map
      Triple.sec)).map (fun s => (t :: rest).filter (fun u => u.sec = s)) =
      (sectionOrder ((rest.filter (fun u => ¬(u.sec = t.sec))).map Triple.sec)).map
        (fun s => (rest.filter (fun u => ¬(u.sec = t.sec))).filter
          (fun u => u.sec = s)) := by
    refine List.map_congr_left fun s hs => ?_
    obtain ⟨u, hu, rfl⟩ := List.mem_map.mp (mem_sectionOrder.mp hs)
    have hne : ¬(u.sec = t.sec) := by simpa using (List.mem_filter.mp hu).2
    rw [List.filter_cons_of_neg (by simp only [decide_eq_true_eq]; exact fun hc => hne hc.symm)]
    rw [List.filter_filter]
    refine (List.filter_congr fun w _ => ?_).symm
    by_cases hw : w.sec = u.sec
    · have hwt : ¬(w.sec = t.sec) := fun hc => hne (by rw [← hw, hc])
      simp [hw, hwt, hne]
    · simp [hw]
  rw [hmap]

theorem groupedTriples_perm_aux (m : Nat) : ∀ (rem : List Triple), rem.length ≤ m →
    (groupedTriples rem).Perm rem := by
  induction m with
  | zero =>
    intro rem hl
    have : rem = [] := List.length_eq_zero.mp (Nat.le_antisymm hl (Nat.zero_le _))
    subst this
    exact List.Perm.refl _
  | succ m ih =>
    intro rem hl
    cases rem with
    | nil => exact List.Perm.refl _
    | cons t rest =>
      rw [groupedTriples_cons]
      have hperm := ih (rest.filter (fun u => ¬(u.sec = t.sec)))
        (Nat.le_trans (List.length_filter_le _ _)
          (by simp only [List.length_cons] at hl; omega))
      refine List.Perm.trans (List.Perm.append_left _ hperm) ?_
      have hhd : (t :: rest).filter (fun u => u.sec = t.sec) =
          t :: rest.filter (fun u => u.sec = t.sec) :=
        List.filter_cons_of_pos (by simp)
      rw [hhd]
      have hneg : rest.filter (fun u => ¬(u.sec = t.sec)) =
          rest.filter (fun u => !(decide (u.sec = t.sec))) := by
        refine List.filter_congr fun w _ => ?_
        simp [decide_not]
      rw [hneg, List.cons_append]
      exact List.Perm.cons t (List.filter_append_perm _ rest)

theorem groupedTriples_perm (rem : List Triple) : (groupedTriples rem).Perm rem :=
  groupedTriples_perm_aux rem.length rem (Nat.le_refl _)

/-- Parsing one written entry line `key=value\n` prepends the expected
triple and continues with the rest of the text. -/
theorem iniParse_entry_step {k v : List Char} (σ X : List Char)
    (hk : goodKey k) (hv : goodVal v) :
    iniParse σ (k ++ '=' :: (v ++ '\n' :: X)) =
      (iniParse σ X).map (fun ts => ⟨σ, k, v⟩ :: ts) := by
  obtain ⟨c0, k2, rfl⟩ : ∃ c0 k2, k = c0 :: k2 := by
    cases k with
    | nil => exact absurd rfl hk.1
    | cons c0 k2 => exact ⟨c0, k2, rfl⟩
  have hc0 : keyCharOk c0 = true := hk.2.1 c0 (List.mem_cons_self _ _)
  rw [iniParse_unfold, List.cons_append,
    skipToFirstReadableChar_cons_readable _ (keyCharOk_readable hc0)]
  dsimp only
  rw [if_neg (keyCharOk_not_special hc0).1, if_neg (keyCharOk_not_special hc0).2]
  rw [show c0 :: (k2 ++ '=' :: (v ++ '\n' :: X)) = (c0 :: k2) ++ '=' :: (v ++ '\n' :: X)
    from rfl]
  rw [parseName_run _ hk]
  dsimp only
  rw [skipEquality_run _ hv]
  dsimp only
  rw [parseValue_run _ hv]
  dsimp only
  rw [iniParse_skip_cons σ X (by decide)]
  cases hx : iniParse σ X with
  | error e => simp [Except.map]
  | ok ts => simp [Except.map]

/-- Parsing the written entry lines of a section prepends all of the
section's triples in order. -/
theorem iniParse_entries (ents : List Triple) : ∀ (σ X : List Char),
    (∀ t ∈ ents, t.sec = σ ∧ goodKey t.key ∧ goodVal t.val) →
    iniParse σ ((ents.map entryLine).flatten ++ X) =
      (iniParse σ X).map (fun ts => ents ++ ts) := by
  induction ents with
  | nil =>
    intro σ X h
    simp only [List.map_nil, List.flatten_nil, List.nil_append]
    cases hx : iniParse σ X <;> simp [Except.map]
  | cons e ents ih =>
    intro σ X h
    have he := h e (List.mem_cons_self _ _)
    simp only [List.map_cons, List.flatten_cons, List.append_assoc]
    have hshape : entryLine e ++ ((ents.map entryLine).flatten ++ X) =
        e.key ++ '=' :: (e.val ++ '\n' :: ((ents.map entryLine).flatten ++ X)) := by
      unfold entryLine
      simp [List.append_assoc]
    rw [hshape, iniParse_entry_step σ _ he.2.1 he.2.2,
      ih σ X (fun t ht => h t (List.mem_cons_of_mem _ ht))]
    have heq : (⟨σ, e.key, e.val⟩ : Triple) = e := by
      rw [← he.1]
    rw [heq]
    cases hx : iniParse σ X <;> simp [Except.map]

/-- Parsing the full serializer output yields exactly the grouped triples.
The initial section-buffer contents `σ` are irrelevant: the written text
opens with a header before any entry. -/
theorem parse_specWrite_aux (m : Nat) : ∀ (rem : List Triple), rem.length ≤ m →
    (∀ t ∈ rem, goodTriple t) → ∀ σ : List Char,
    iniParse σ (specWrite rem) = .ok (groupedTriples rem) := by
  induction m with
  | zero =>
    intro rem hl hg σ
    have : rem = [] := List.length_eq_zero.mp (Nat.le_antisymm hl (Nat.zero_le _))
    subst this
    rfl
  | succ m ih =>
    intro rem hl hg σ
    cases rem with
    | nil => rfl
    | cons t rest =>
      rw [specWrite_cons, groupedTriples_cons]
      have hgt := hg t (List.mem_cons_self _ _)
      have hshape : groupText (t :: rest) t.sec ++
          specWrite (rest.filter (fun u => ¬(u.sec = t.sec))) =
          '[' :: (t.sec ++ ']' :: ('\n' ::
            ((((t :: rest).filter (fun u => u.sec = t.sec)).map entryLine).flatten ++
              '\n' :: specWrite (rest.filter (fun u => ¬(u.sec = t.sec)))))) := by
        unfold groupText
        simp [List.append_assoc]
      rw [hshape, iniParse_unfold,
        skipToFirstReadableChar_cons_readable _ (by decide)]
      dsimp only
      rw [if_pos rfl, parseSection_run _ hgt.1]
      dsimp only
      rw [iniParse_skip_cons _ _ (by decide)]
      rw [iniParse_entries _ t.sec _ ?hents]
      case hents =>
        intro u hu
        have hmem := List.mem_filter.mp hu
        have hgu := hg u hmem.1
        have husec : u.sec = t.sec := by simpa using hmem.2
        exact ⟨husec, hgu.2.1, hgu.2.2⟩
      rw [iniParse_skip_cons _ _ (by decide)]
      rw [ih (rest.filter (fun u => ¬(u.sec = t.sec)))
        (Nat.le_trans (List.length_filter_le _ _)
          (by simp only [List.length_cons] at hl; omega))
        (fun u hu => hg u (List.mem_cons_of_mem _ (List.mem_of_mem_filter hu))) t.sec]
      simp [Except.map]

theorem parse_specWrite {rem : List Triple} (hg : ∀ t ∈ rem, goodTriple t)
    (σ : List Char) : iniParse σ (specWrite rem) = .ok (groupedTriples rem) :=
  parse_specWrite_aux rem.length rem (Nat.le_refl _) hg σ

/-- **C1** — For every option count in `[0, 256]` and every accessor
callback that is a pure, repeatable function of the index, a `Write` call
that returns success emits exactly the specified grouping text
(`specWrite`): all indices whose section strings are equal by exact string
comparison appear together under a single `[section]` header in index
order, sections appear in order of the index of their first
not-yet-emitted member (`sectionOrder` is first-appearance order, without
duplicates, covering exactly the sections that occur), and a blank line
separates the groups.  In particular every index's `key=value` line is
emitted exactly once: it occurs in exactly one group, the unique group of
its own section. -/
theorem c1_write_grouping {cap : Nat} {opts : List Triple} {out : List Char}
    (hcount : opts.length ≤ 256) (h : ceWrite cap opts = .ok out) :
    out = specWrite opts ∧
    (sectionOrder (opts.map Triple.sec)).Nodup ∧
    (∀ s, s ∈ sectionOrder (opts.map Triple.sec) ↔ s ∈ opts.map Triple.sec) := by
  unfold ceWrite at h
  rw [if_neg (by omega)] at h
  exact ⟨writeLoop_spec h, sectionOrder_nodup _, fun s => mem_sectionOrder⟩

/-- Witness for C1: the specification's three-option example
`{(A,"k1","v1"), (B,"k2","v2"), (A,"k3","v3")}` written into a buffer of
capacity 100 succeeds, and by `c1_write_grouping` its output is the
specified grouping (concretely `"[A]\nk1=v1\nk3=v3\n\n[B]\nk2=v2\n\n\n"`),
with `[A]` holding `k1=v1` and `k3=v3` together and `[B]` holding
`k2=v2`. -/
theorem c1_write_grouping_witness :
    ceWrite 100 c1ExOpts = .ok (specWrite c1ExOpts) ∧
    specWrite c1ExOpts = "[A]\nk1=v1\nk3=v3\n\n[B]\nk2=v2\n\n\n".toList := by
  have h : ceWrite 100 c1ExOpts = .ok "[A]\nk1=v1\nk3=v3\n\n[B]\nk2=v2\n\n\n".toList := rfl
  have hc := (c1_write_grouping (by decide) h).1
  exact ⟨by rw [h, ← hc], hc.symm⟩

/-- **C2** — Parsing the document `"[s]\n;comment\nk=v\n"` succeeds and
invokes the callback exactly once, with section `"s"`, key `"k"` and value
`"v"`; the comment line and the newlines produce no invocation.  The
statement holds for every initial content `σ` of the section buffer. -/
theorem c2_single_entry_parse (σ : List Char) :
    iniParse σ "[s]\n;comment\nk=v\n".toList = .ok [⟨['s'], ['k'], ['v']⟩] := rfl

/-- **C3** — Contrary to the claim, a quoted value whose opening quote is
never closed parses *successfully* when the input ends: `parseQuotedValue`
on `"\"v"` returns the value `"v"` with no error, and the whole document
`"k=\"v"` parses with one callback, because the closing check `if(*str &&
*(str++) != '"')` short-circuits at the NUL terminator.  Only the
line-break / comment / carriage-return cases produce the
`MissingClosingQuote` error as claimed. -/
theorem c3_unterminated_quote_eof_succeeds :
    parseQuotedValue "\"v".toList = .ok (['v'], []) ∧
    iniParse [] "k=\"v".toList = .ok [⟨[], ['k'], ['v']⟩] ∧
    parseQuotedValue "\"v\n".toList = .error .missingClosingQuote ∧
    parseQuotedValue "\"v\r".toList = .error .missingClosingQuote ∧
    parseQuotedValue "\"v;".toList = .error .missingClosingQuote :=
  ⟨rfl, rfl, rfl, rfl, rfl⟩

/-- **C4** — Contrary to the claim, an entry line that precedes every
section header is delivered with whatever the uninitialised `char
section[32]` stack buffer happens to hold (the parameter `σ` of the
model), not with the empty string: for *every* initial buffer content `σ`
the callback for `"k=v\n"` receives section `σ`, e.g. `"JUNK"` when the
stack garbage is `"JUNK"`.  For entries after a header the claim's
nearest-preceding-header rule does hold (second conjunct: the same
document prefixed with `[s]` delivers `"s"` regardless of `σ`). -/
theorem c4_initial_section_uninitialised :
    (∀ σ : List Char, iniParse σ "k=v\n".toList = .ok [⟨σ, ['k'], ['v']⟩]) ∧
    iniParse "JUNK".toList "k=v\n".toList = .ok [⟨"JUNK".toList, ['k'], ['v']⟩] ∧
    "JUNK".toList ≠ ([] : List Char) ∧
    (∀ σ : List Char, iniParse σ "[s]\nk=v\n".toList = .ok [⟨['s'], ['k'], ['v']⟩]) :=
  ⟨fun _ => rfl, rfl, by decide, fun _ => rfl⟩

/-- **C5** — Every successfully parsed unquoted value has all trailing
space characters removed (it never ends in a space), and parsing the entry
line `"name = hello   \n"` yields the value `"hello"`. -/
theorem c5_unquoted_trailing_trim :
    (∀ (s v rest : List Char), parseUnquotedValue s = .ok (v, rest) →
      v.getLast? ≠ some ' ') ∧
    iniParse [] "name = hello   \n".toList =
      .ok [⟨[], "name".toList, "hello".toList⟩] := by
  refine ⟨fun s v rest h => ?_, rfl⟩
  unfold parseUnquotedValue at h
  split at h
  · exact absurd h (by simp)
  next v2 r2 heq =>
    cases h
    exact trimTrailingSpaces_getLast? v2

/-- Witness for C5: `parseUnquotedValue "h  "` succeeds with value `"h"`,
which indeed does not end in a space. -/
theorem c5_unquoted_trailing_trim_witness : (['h'] : List Char).getLast? ≠ some ' ' :=
  c5_unquoted_trailing_trim.1 "h  ".toList ['h'] [] rfl

/-- **C6** — Inside a quoted value `\"` yields `"`, `\\` yields `\`, `\t`
yields a tab, `\n` yields a newline; a backslash followed by any other
character fails with `InvalidEscapeSequence` (also when the input ends
right after the backslash, where the `switch` reads the NUL terminator);
and trailing spaces inside the quotes are preserved (a quoted value of `k`
spaces parses to exactly `k` spaces, untrimmed, for any `k` within the
length bound). -/
theorem c6_quoted_escapes_and_spaces :
    (∀ rest : List Char, parseQuotedValue ('"' :: '\\' :: '"' :: '"' :: rest) =
      .ok (['"'], rest)) ∧
    (∀ rest : List Char, parseQuotedValue ('"' :: '\\' :: '\\' :: '"' :: rest) =
      .ok (['\\'], rest)) ∧
    (∀ rest : List Char, parseQuotedValue ('"' :: '\\' :: 't' :: '"' :: rest) =
      .ok (['\t'], rest)) ∧
    (∀ rest : List Char, parseQuotedValue ('"' :: '\\' :: 'n' :: '"' :: rest) =
      .ok (['\n'], rest)) ∧
    (∀ (c : Char) (rest : List Char), c ≠ '"' → c ≠ '\\' → c ≠ 't' → c ≠ 'n' →
      parseQuotedValue ('"' :: '\\' :: c :: rest) = .error .invalidEscapeSequence) ∧
    parseQuotedValue ('"' :: '\\' :: []) = .error .invalidEscapeSequence ∧
    (∀ (k : Nat) (rest : List Char), k ≤ 63 →
      parseQuotedValue ('"' :: (List.replicate k ' ' ++ '"' :: rest)) =
        .ok (List.replicate k ' ', rest)) := by
  refine ⟨?_, ?_, ?_, ?_, ?_, rfl, ?_⟩
  · intro rest
    show qLoop 0 [] ('\\' :: '"' :: '"' :: rest) = _
    unfold qLoop
    simp [escChar]
    unfold qLoop
    simp
  · intro rest
    show qLoop 0 [] ('\\' :: '\\' :: '"' :: rest) = _
    unfold qLoop
    simp [escChar]
    unfold qLoop
    simp
  · intro rest
    show qLoop 0 [] ('\\' :: 't' :: '"' :: rest) = _
    unfold qLoop
    simp [escChar]
    unfold qLoop
    simp
  · intro rest
    show qLoop 0 [] ('\\' :: 'n' :: '"' :: rest) = _
    unfold qLoop
    simp [escChar]
    unfold qLoop
    simp
  · intro c rest h1 h2 h3 h4
    show qLoop 0 [] ('\\' :: c :: rest) = _
    unfold qLoop
    simp [escChar, h1, h2, h3, h4]
  · have key : ∀ (k n : Nat) (acc rest : List Char), n + k ≤ 63 →
        qLoop n acc (List.replicate k ' ' ++ '"' :: rest) =
          .ok (acc ++ List.replicate k ' ', rest) := by
      intro k
      induction k with
      | zero =>
        intro n acc rest h
        have h0 : List.replicate 0 ' ' ++ '"' :: rest = '"' :: rest := rfl
        rw [h0]
        unfold qLoop
        simp
      | succ k ih =>
        intro n acc rest h
        rw [List.replicate_succ, List.cons_append]
        have hn : n < 63 := by omega
        unfold qLoop
        simp only [show ((' ' = '\n' || ' ' = '\r' || ' ' = ';') : Bool) = false from rfl,
          Bool.false_eq_true, if_false, if_neg (by decide : ¬(' ' = '"')),
          if_neg (by decide : ¬(' ' = '\\')),
          if_neg (show ¬¬((isprint ' ' || ' ' = '\t') = true) by decide),
          if_neg (show ¬¬(n < 63) from not_not_intro hn)]
        rw [ih (n + 1) (acc ++ [' ']) rest (by omega)]
        simp
    intro k rest hk
    show qLoop 0 [] (List.replicate k ' ' ++ '"' :: rest) = _
    rw [key k 0 [] rest (by omega)]
    simp

/-- **C7** — A section body of exactly 31 characters, a key of exactly 31
characters, and a value of exactly 63 characters each parse successfully,
while a section of 32, a key of 32 or a value of 64 characters fails with
`SectionTooLong` / `KeyTooLong` / `ValueTooLong` respectively instead of
being truncated — for values both unquoted (counted before trailing-space
trimming: the parsed value is the trimmed accumulation) and quoted
(counted after unescaping: the last two conjuncts count the escape `\n` as
the one character it decodes to). -/
theorem c7_length_bounds :
    (∀ (l r : List Char), (∀ c ∈ l, sectionCharOk c = true) → l.length = 31 →
      parseSection ('[' :: (l ++ ']' :: r)) = .ok (l, r)) ∧
    (∀ (l r : List Char), (∀ c ∈ l, sectionCharOk c = true) → l.length = 32 →
      parseSection ('[' :: (l ++ ']' :: r)) = .error .sectionTooLong) ∧
    (∀ (l r : List Char), (∀ c ∈ l, keyCharOk c = true) → l.length = 31 →
      parseName (l ++ '=' :: r) = .ok (l, '=' :: r)) ∧
    (∀ (l r : List Char), (∀ c ∈ l, keyCharOk c = true) → l.length = 32 →
      parseName (l ++ '=' :: r) = .error .keyTooLong) ∧
    (∀ (l r : List Char), (∀ c ∈ l, uvCharOk c = true) → l.length = 63 →
      parseUnquotedValue (l ++ '\n' :: r) = .ok (trimTrailingSpaces l, '\n' :: r)) ∧
    (∀ (l r : List Char), (∀ c ∈ l, uvCharOk c = true) → l.length = 64 →
      parseUnquotedValue (l ++ '\n' :: r) = .error .valueTooLong) ∧
    (∀ (l r : List Char), (∀ c ∈ l, qvCharOk c = true) → l.length = 63 →
      parseQuotedValue ('"' :: (l ++ '"' :: r)) = .ok (l, r)) ∧
    (∀ (l r : List Char), (∀ c ∈ l, qvCharOk c = true) → l.length = 64 →
      parseQuotedValue ('"' :: (l ++ '"' :: r)) = .error .valueTooLong) ∧
    (∀ r : List Char,
      parseQuotedValue ('"' :: (List.replicate 62 'a' ++ '\\' :: 'n' :: '"' :: r)) =
        .ok (List.replicate 62 'a' ++ ['\n'], r)) ∧
    (∀ r : List Char,
      parseQuotedValue ('"' :: (List.replicate 63 'a' ++ '\\' :: 'n' :: '"' :: r)) =
        .error .valueTooLong) := by
  have hrep : ∀ k, ∀ c ∈ List.replicate k 'a', qvCharOk c = true := by
    intro k c hc
    rw [(List.eq_of_mem_replicate hc : c = 'a')]
    decide
  refine ⟨?_, ?_, ?_, ?_, ?_, ?_, ?_, ?_, ?_, ?_⟩
  · intro l r hc hl
    show sectionLoop 0 [] (l ++ ']' :: r) = _
    rw [sectionLoop_consume l 0 [] (']' :: r) hc (by omega), sectionLoop_close]
    simp
  · intro l r hc hl
    show sectionLoop 0 [] (l ++ ']' :: r) = _
    rw [sectionLoop_tooLong l 0 [] (']' :: r) hc (by omega)
      (by intro h; rw [h] at hl; simp at hl)]
  · intro l r hc hl
    show nameLoop 0 [] (l ++ '=' :: r) = _
    rw [nameLoop_consume l 0 [] ('=' :: r) hc (by omega),
      nameLoop_stop _ _ _ (Or.inr rfl) (by omega)]
    simp
  · intro l r hc hl
    show nameLoop 0 [] (l ++ '=' :: r) = _
    rw [nameLoop_tooLong l 0 [] ('=' :: r) hc (by omega)
      (by intro h; rw [h] at hl; simp at hl)]
  · intro l r hc hl
    unfold parseUnquotedValue
    rw [unqLoop_consume l 0 [] ('\n' :: r) hc (by omega),
      unqLoop_stop _ _ _ (Or.inl rfl)]
    simp
  · intro l r hc hl
    unfold parseUnquotedValue
    rw [unqLoop_tooLong l 0 [] ('\n' :: r) hc (by omega)
      (by intro h; rw [h] at hl; simp at hl)]
  · intro l r hc hl
    show qLoop 0 [] (l ++ '"' :: r) = _
    rw [qLoop_consume l 0 [] ('"' :: r) hc (by omega), qLoop_close]
    simp
  · intro l r hc hl
    show qLoop 0 [] (l ++ '"' :: r) = _
    rw [qLoop_tooLong l 0 [] ('"' :: r) hc (by omega)
      (by intro h; rw [h] at hl; simp at hl)]
  · intro r
    show qLoop 0 [] (List.replicate 62 'a' ++ '\\' :: 'n' :: '"' :: r) = _
    rw [qLoop_consume (List.replicate 62 'a') 0 [] ('\\' :: 'n' :: '"' :: r) (hrep 62)
      (by simp)]
    conv_lhs => unfold qLoop
    simp only [List.length_replicate, List.nil_append]
    rw [if_neg (by decide), if_neg (by decide)]
    simp only [if_true]
    have hesc : escChar 'n' = .ok '\n' := rfl
    rw [hesc]
    simp only [if_neg (show ¬¬(0 + 62 < 63) by omega)]
    rw [qLoop_close]
  · intro r
    show qLoop 0 [] (List.replicate 63 'a' ++ '\\' :: 'n' :: '"' :: r) = _
    rw [qLoop_consume (List.replicate 63 'a') 0 [] ('\\' :: 'n' :: '"' :: r) (hrep 63)
      (by simp)]
    conv_lhs => unfold qLoop
    simp only [List.length_replicate, List.nil_append]
    rw [if_neg (by decide), if_neg (by decide)]
    simp only [if_true]
    have hesc : escChar 'n' = .ok '\n' := rfl
    rw [hesc]
    simp only [if_pos (show ¬(0 + 63 < 63) by omega)]

/-- Witness for C7: concrete boundary inputs (runs of `'a'`, `'k'`, `'v'`,
`'q'` of lengths 31/32/63/64). -/
theorem c7_length_bounds_witness :
    parseSection ('[' :: (List.replicate 31 'a' ++ ']' :: [])) =
      .ok (List.replicate 31 'a', []) ∧
    parseSection ('[' :: (List.replicate 32 'a' ++ ']' :: [])) = .error .sectionTooLong ∧
    parseName (List.replicate 31 'k' ++ '=' :: []) =
      .ok (List.replicate 31 'k', '=' :: []) ∧
    parseName (List.replicate 32 'k' ++ '=' :: []) = .error .keyTooLong ∧
    parseUnquotedValue (List.replicate 63 'v' ++ '\n' :: []) =
      .ok (trimTrailingSpaces (List.replicate 63 'v'), '\n' :: []) ∧
    parseUnquotedValue (List.replicate 64 'v' ++ '\n' :: []) = .error .valueTooLong ∧
    parseQuotedValue ('"' :: (List.replicate 63 'q' ++ '"' :: [])) =
      .ok (List.replicate 63 'q', []) ∧
    parseQuotedValue ('"' :: (List.replicate 64 'q' ++ '"' :: [])) =
      .error .valueTooLong :=
  ⟨c7_length_bounds.1 _ [] (by decide) (by decide),
   c7_length_bounds.2.1 _ [] (by decide) (by decide),
   c7_length_bounds.2.2.1 _ [] (by decide) (by decide),
   c7_length_bounds.2.2.2.1 _ [] (by decide) (by decide),
   c7_length_bounds.2.2.2.2.1 _ [] (by decide) (by decide),
   c7_length_bounds.2.2.2.2.2.1 _ [] (by decide) (by decide),
   c7_length_bounds.2.2.2.2.2.2.1 _ [] (by decide) (by decide),
   c7_length_bounds.2.2.2.2.2.2.2.1 _ [] (by decide) (by decide)⟩

/-- Witness for C6: a bad escape `\x` is rejected, and a quoted value of
two trailing spaces is preserved untrimmed. -/
theorem c6_quoted_escapes_and_spaces_witness :
    parseQuotedValue ('"' :: '\\' :: 'x' :: []) = .error .invalidEscapeSequence ∧
    parseQuotedValue ('"' :: (List.replicate 2 ' ' ++ '"' :: [])) =
      .ok (List.replicate 2 ' ', []) :=
  ⟨c6_quoted_escapes_and_spaces.2.2.2.2.1 'x' [] (by decide) (by decide) (by decide) (by decide),
   c6_quoted_escapes_and_spaces.2.2.2.2.2.2 2 [] (by decide)⟩

theorem goodVal_of (v : List Char) (h1 : v.all uvCharOk = true)
    (h2 : v.head?.all (fun c => !iscntrl c && !(c == ' ') && !(c == '"')) = true)
    (h3 : v.getLast? ≠ some ' ') (h4 : v.length ≤ 63) : goodVal v := by
  refine ⟨fun c hc => (List.all_eq_true.mp h1) c hc, ?_, h3, h4⟩
  intro c hc
  rw [hc] at h2
  simp only [Option.all_some, Bool.and_eq_true, Bool.not_eq_true',
    beq_eq_false_iff_ne, ne_eq] at h2
  exact ⟨h2.1.1, h2.1.2, h2.2⟩

/-- **C8** counterexample — the round trip fails on the valid document
`k=" a"\n`: its quoted value `" a"` has a leading space, `Write` emits the
value raw as `k= a`, and the re-parse's whitespace skipping after `=`
drops the space, yielding value `"a"`: a different multiset of triples. -/
theorem c8_round_trip_counterexample :
    iniParse [] "k=\" a\"\n".toList = .ok [⟨[], ['k'], [' ', 'a']⟩] ∧
    ceWrite 100 [⟨[], ['k'], [' ', 'a']⟩] = .ok "[]\nk= a\n\n\n".toList ∧
    iniParse [] "[]\nk= a\n\n\n".toList = .ok [⟨[], ['k'], ['a']⟩] ∧
    ((([⟨[], ['k'], ['a']⟩] : List Triple) : Multiset Triple) ≠
      (([⟨[], ['k'], [' ', 'a']⟩] : List Triple) : Multiset Triple)) := by
  refine ⟨rfl, rfl, rfl, ?_⟩
  intro h
  have hperm := Multiset.coe_eq_coe.mp h
  have heq := List.perm_singleton.mp hperm
  injection heq with h1 h2
  simp only [Triple.mk.injEq] at h1
  exact absurd h1.2.2 (by decide)

/-- **C8** (amended) — For every valid document whose parsed values are
re-serializable (`goodVal`: printable-or-tab characters, no `';'`, no
leading whitespace or `'"'`, no trailing space — conditions every
*unquoted* value satisfies automatically, and that only quoted values
using escapes or quoted leading/trailing spaces can violate), parsing,
re-serializing the collected triples with a `Write` call that succeeds,
and re-parsing yields the same multiset of (section, key, value) triples:
the re-parse returns exactly the grouped permutation of the first parse's
triples.  Section and key well-formedness is not hypothesised — it is
derived from the first parse. -/
theorem c8_round_trip_amended {doc : List Char} {ts : List Triple} {cap : Nat}
    {out : List Char}
    (hp : iniParse [] doc = .ok ts)
    (hv : ∀ t ∈ ts, goodVal t.val)
    (hw : ceWrite cap ts = .ok out) :
    iniParse [] out = .ok (groupedTriples ts) ∧
    ((groupedTriples ts : Multiset Triple) = (ts : Multiset Triple)) := by
  have hout : out = specWrite ts := by
    unfold ceWrite at hw
    split at hw
    · exact absurd hw (by simp)
    · exact writeLoop_spec hw
  have hg : ∀ t ∈ ts, goodTriple t := by
    intro t ht
    have hsk := iniParse_sections hp t ht
    refine ⟨?_, hsk.2, hv t ht⟩
    rcases hsk.1 with heq | hgood
    · rw [heq]
      exact ⟨by simp, by simp⟩
    · exact hgood
  subst hout
  exact ⟨parse_specWrite hg [], Multiset.coe_eq_coe.mpr (groupedTriples_perm ts)⟩

/-- Witness for C8: the three-option document parses to the example
triples (re-serializable plain values), writing them into a buffer of
capacity 100 succeeds, and re-parsing the written text yields exactly the
grouped permutation of the original triples. -/
theorem c8_round_trip_amended_witness :
    iniParse [] "[A]\nk1=v1\nk3=v3\n\n[B]\nk2=v2\n\n\n".toList =
      .ok (groupedTriples c1ExOpts) ∧
    ((groupedTriples c1ExOpts : Multiset Triple) = (c1ExOpts : Multiset Triple)) := by
  have hv : ∀ t ∈ c1ExOpts, goodVal t.val := by
    intro t ht
    simp only [c1ExOpts, List.mem_cons, List.not_mem_nil, or_false] at ht
    rcases ht with rfl | rfl | rfl <;>
      exact goodVal_of _ (by decide) (by decide) (by decide) (by decide)
  have hp : iniParse [] "[A]\nk1=v1\n[B]\nk2=v2\n[A]\nk3=v3\n".toList = .ok c1ExOpts := rfl
  have hw : ceWrite 100 c1ExOpts = .ok "[A]\nk1=v1\nk3=v3\n\n[B]\nk2=v2\n\n\n".toList := rfl
  exact c8_round_trip_amended hp hv hw

/-- **C9** (refuting evaluation) — Contrary to the claim, `bufferPrint`
does *not* keep every store strictly below `max_length`: with
`max_length = 2`, `*bytes_written = 0` and the one-byte string `"a"`, the
copy loop stores `'a'` at index 0 and returns success, but the terminator
store `buffer[index + 1] = '\0'` then writes the NUL byte at index
`2 = max_length`, one past the last valid index (and two past the last
character, since `index` already points past the copied text). -/
theorem c9_bufferPrint_oob_store :
    bufferPrintT 2 0 ['a'] = .ok ([(0, 'a'), (2, nulChar)], 1) ∧
    ∃ p ∈ [((0 : Nat), 'a'), (2, nulChar)], ¬(p.1 < 2) :=
  ⟨rfl, ⟨(2, nulChar), by simp, by omega⟩⟩

/-- **C10** (refuting evaluation) — Contrary to the claim, after the
successful `CE_INI_Write` call with `option_count = 0` (and capacity 8)
the byte immediately after the emitted text is *not* a terminator: the
call emits the single blank line `'\n'` at index 0 and returns
`bytes_written = 1`, but its store trace touches only indices 0 and 2 —
index 1, the position immediately after the last emitted character, is
never stored to, so it keeps whatever stale byte the buffer held, while
the terminator sits at index 2 leaving a one-byte gap. -/
theorem c10_write_terminator_gap :
    ceWriteT 8 [] = .ok ([(0, '\n'), (2, nulChar)], 1) ∧
    (∀ p ∈ [((0 : Nat), '\n'), (2, nulChar)], p.1 ≠ 1) :=
  ⟨rfl, by decide⟩

end CeIni
